import Mathlib

/-!
Verification of the streaming top-K statistics of the data-engineer-challenge
repository (src/q1_memory.py, src/q1_time.py, src/q2_memory.py, src/q2_time.py,
src/q3_memory.py, src/q3_time.py).

The development shallowly embeds the Python code at the level of decoded
JSON lines: `collections.Counter` becomes an insertion-ordered association
list, `Counter.most_common(n)` becomes a stable descending sort followed by
`take n` (CPython documents `most_common`/`heapq.nlargest` as equivalent to
`sorted(items, key=count, reverse=True)[:n]`, which is a stable sort), and the
streaming loops become recursions over the list of decoded lines, returning
`Except` so that the uncaught-exception paths of the source are visible.
-/

set_option maxHeartbeats 1000000

namespace DEChallenge

/-- Decidable equality on `Except`, for evaluating run results on
concrete inputs. -/
instance {ε α : Type} [DecidableEq ε] [DecidableEq α] :
    DecidableEq (Except ε α) := fun x y =>
  match x, y with
  | .error e, .error e' =>
      if h : e = e' then .isTrue (by rw [h])
      else .isFalse (fun hh => h (Except.error.inj hh))
  | .ok a, .ok b =>
      if h : a = b then .isTrue (by rw [h])
      else .isFalse (fun hh => h (Except.ok.inj hh))
  | .error _, .ok _ => .isFalse (fun hh => Except.noConfusion hh)
  | .ok _, .error _ => .isFalse (fun hh => Except.noConfusion hh)

/-! ## Counter: model of Python collections.Counter

A `Counter` is an insertion-ordered mapping from keys to counts, modelling a
CPython 3.7+ dict: `c[k] += 1` updates an existing entry in place (keeping its
position) and appends a fresh entry `(k, 1)` at the end otherwise. -/

/-- Insertion-ordered counter: association list of (key, count). -/
abbrev Counter (K : Type) := List (K × Nat)

namespace Counter

/-- `c[k] += 1` on a Python `Counter`: bump the first entry for `k` in place,
or append `(k, 1)` when `k` is absent. -/
def incr [DecidableEq K] : Counter K → K → Counter K
  | [], k => [(k, 1)]
  | (k', n) :: rest, k =>
      if k' = k then (k', n + 1) :: rest else (k', n) :: incr rest k

/-- Lookup of a key's count, 0 when absent (Python `Counter` missing-key default). -/
def cnt [DecidableEq K] (c : Counter K) (k : K) : Nat :=
  match c with
  | [] => 0
  | (k', n) :: rest => if k' = k then n else cnt rest k

/-- Sum of all stored counts. -/
def total (c : Counter K) : Nat := (c.map Prod.snd).sum

/-- Build a counter by observing a stream of keys in order (`Counter.update`). -/
def build [DecidableEq K] (ks : List K) : Counter K :=
  ks.foldl incr []

end Counter

/-! ## Stable descending sort by a numeric rank

`sortRank rank l` sorts `l` by `rank` descending; among elements of equal
rank the original order is kept.  This is the behaviour CPython documents for
`sorted(l, key=rank, reverse=True)` and hence for `Counter.most_common`. -/

/-- Insert `x` in front of the first element whose rank does not exceed
`rank x` (so ties keep the element inserted from the left first). -/
def insRank (rank : α → Nat) (x : α) : List α → List α
  | [] => [x]
  | y :: ys => if rank y ≤ rank x then x :: y :: ys else y :: insRank rank x ys

/-- Stable insertion sort, descending by `rank`. -/
def sortRank (rank : α → Nat) : List α → List α
  | [] => []
  | x :: xs => insRank rank x (sortRank rank xs)

theorem perm_insRank (rank : α → Nat) (x : α) (l : List α) :
    List.Perm (insRank rank x l) (x :: l) := by
  induction l with
  | nil => simp [insRank]
  | cons y ys ih =>
      by_cases h : rank y ≤ rank x
      · simp [insRank, h]
      · simp only [insRank, h, ite_false]
        exact (ih.cons y).trans (List.Perm.swap x y ys)

theorem perm_sortRank (rank : α → Nat) (l : List α) :
    List.Perm (sortRank rank l) l := by
  induction l with
  | nil => simp [sortRank]
  | cons x xs ih =>
      exact (perm_insRank rank x (sortRank rank xs)).trans (ih.cons x)

theorem pairwise_insRank (rank : α → Nat) (x : α) (l : List α)
    (h : l.Pairwise (fun a b => rank b ≤ rank a)) :
    (insRank rank x l).Pairwise (fun a b => rank b ≤ rank a) := by
  induction l with
  | nil => simp [insRank]
  | cons y ys ih =>
      obtain ⟨hy, htail⟩ := List.pairwise_cons.mp h
      by_cases hxy : rank y ≤ rank x
      · simp only [insRank, hxy, ite_true]
        refine List.Pairwise.cons ?_ h
        intro b hb
        rcases List.mem_cons.mp hb with hb | hb
        · exact hb ▸ hxy
        · exact le_trans (hy b hb) hxy
      · simp only [insRank, hxy, ite_false]
        refine List.Pairwise.cons ?_ (ih htail)
        intro b hb
        have hb' := (perm_insRank rank x ys).mem_iff.mp hb
        rcases List.mem_cons.mp hb' with hb' | hb'
        · exact hb' ▸ Nat.le_of_not_le hxy
        · exact hy b hb'

theorem pairwise_sortRank (rank : α → Nat) (l : List α) :
    (sortRank rank l).Pairwise (fun a b => rank b ≤ rank a) := by
  induction l with
  | nil => simp [sortRank]
  | cons x xs ih => exact pairwise_insRank rank x _ ih

/-- Stability, expressed through filters: inserting `x` puts it in front of
every element of equal rank (elements passed over have strictly larger rank). -/
theorem filter_insRank (rank : α → Nat) (x : α) (l : List α) (n : Nat) :
    (insRank rank x l).filter (fun a => decide (rank a = n))
      = if rank x = n then x :: l.filter (fun a => decide (rank a = n))
        else l.filter (fun a => decide (rank a = n)) := by
  induction l with
  | nil =>
      by_cases hx : rank x = n <;> simp [insRank, hx]
  | cons y ys ih =>
      by_cases hxy : rank y ≤ rank x
      · simp only [insRank, hxy, ite_true]
        by_cases hx : rank x = n <;> simp [List.filter_cons, hx]
      · simp only [insRank, hxy, ite_false]
        have hyx : rank x < rank y := Nat.lt_of_not_le hxy
        by_cases hx : rank x = n
        · have hy : rank y ≠ n := by omega
          simp [List.filter_cons, ih, hx, hy]
        · simp [List.filter_cons, ih, hx]

theorem filter_sortRank (rank : α → Nat) (l : List α) (n : Nat) :
    (sortRank rank l).filter (fun a => decide (rank a = n))
      = l.filter (fun a => decide (rank a = n)) := by
  induction l with
  | nil => simp [sortRank]
  | cons x xs ih =>
      simp only [sortRank, filter_insRank, ih, List.filter_cons]
      by_cases hx : rank x = n <;> simp [hx]

/-- A rank-descending sorted list decomposes as the strictly-larger block,
then the rank-`n` block, then the strictly-smaller block. -/
theorem sorted_three_way (rank : α → Nat) (s : List α) (n : Nat)
    (hs : s.Pairwise (fun a b => rank b ≤ rank a)) :
    s.filter (fun a => decide (n < rank a))
        ++ s.filter (fun a => decide (rank a = n))
        ++ s.filter (fun a => decide (rank a < n)) = s := by
  induction s with
  | nil => simp
  | cons x xs ih =>
      obtain ⟨hx, htail⟩ := List.pairwise_cons.mp hs
      have ihx := ih htail
      rcases Nat.lt_trichotomy n (rank x) with h | h | h
      · have h2 : rank x ≠ n := by omega
        have h3 : ¬ (rank x < n) := by omega
        simp only [List.filter_cons]
        simp [h, h2, h3, List.cons_append, ihx]
      · subst h
        have h1 : ¬ (rank x < rank x) := by omega
        have hgt : xs.filter (fun a => decide (rank x < rank a)) = [] := by
          apply List.filter_eq_nil_iff.mpr
          intro a ha
          have := hx a ha
          simp only [decide_eq_true_eq]
          omega
        rw [hgt] at ihx
        simp only [List.nil_append] at ihx
        simp only [List.filter_cons]
        simp [h1, hgt, ihx]
      · have h1 : ¬ (n < rank x) := by omega
        have h2 : rank x ≠ n := by omega
        have hgt : xs.filter (fun a => decide (n < rank a)) = [] := by
          apply List.filter_eq_nil_iff.mpr
          intro a ha
          have := hx a ha
          simp only [decide_eq_true_eq]
          omega
        have heq : xs.filter (fun a => decide (rank a = n)) = [] := by
          apply List.filter_eq_nil_iff.mpr
          intro a ha
          have := hx a ha
          simp only [decide_eq_true_eq]
          omega
        have hlt : xs.filter (fun a => decide (rank a < n)) = xs := by
          apply List.filter_eq_self.mpr
          intro a ha
          have := hx a ha
          simp only [decide_eq_true_eq]
          omega
        simp only [List.filter_cons]
        simp [h1, h2, h, hgt, heq, hlt]

/-! ## Auxiliary list functions: occurrence count and first index -/

/-- Number of occurrences of `a` in a list (`list.count(a)`). -/
def occCount [DecidableEq α] (a : α) : List α → Nat
  | [] => 0
  | b :: l => (if b = a then 1 else 0) + occCount a l

/-- Index of the first occurrence of `a` (length of the list when absent);
the rank of a key in a returned top-K list. -/
def idxOf [DecidableEq α] (a : α) : List α → Nat
  | [] => 0
  | b :: l => if b = a then 0 else idxOf a l + 1

theorem idxOf_append_left [DecidableEq α] (a : α) (l₁ l₂ : List α)
    (h : a ∈ l₁) : idxOf a (l₁ ++ l₂) = idxOf a l₁ := by
  induction l₁ with
  | nil => cases h
  | cons b l ih =>
      by_cases hb : b = a
      · simp [idxOf, hb]
      · have : a ∈ l := by
          rcases List.mem_cons.mp h with h' | h'
          · exact absurd h'.symm hb
          · exact h'
        simp [idxOf, hb, ih this]

theorem idxOf_append_right [DecidableEq α] (a : α) (l₁ l₂ : List α)
    (h : a ∉ l₁) : idxOf a (l₁ ++ l₂) = l₁.length + idxOf a l₂ := by
  induction l₁ with
  | nil => simp
  | cons b l ih =>
      have hb : b ≠ a := fun hba => h (hba ▸ List.mem_cons_self b l)
      have h' : a ∉ l := fun hm => h (List.mem_cons_of_mem b hm)
      simp [idxOf, hb, ih h', List.length_cons]
      omega

theorem idxOf_lt_length [DecidableEq α] (a : α) (l : List α) (h : a ∈ l) :
    idxOf a l < l.length := by
  induction l with
  | nil => cases h
  | cons b l ih =>
      by_cases hb : b = a
      · simp [idxOf, hb]
      · have : a ∈ l := by
          rcases List.mem_cons.mp h with h' | h'
          · exact absurd h'.symm hb
          · exact h'
        simp only [idxOf, hb, ite_false, List.length_cons]
        exact Nat.succ_lt_succ (ih this)

theorem mem_take_iff_idxOf [DecidableEq α] (a : α) (l : List α) (n : Nat) :
    a ∈ l.take n ↔ a ∈ l ∧ idxOf a l < n := by
  induction l generalizing n with
  | nil => simp
  | cons b l ih =>
      cases n with
      | zero => simp [Nat.not_lt_zero]
      | succ m =>
          by_cases hb : b = a
          · simp [hb, idxOf, List.take]
          · simp only [List.take, List.mem_cons, idxOf, hb, ite_false]
            constructor
            · rintro (h' | h')
              · exact absurd h'.symm hb
              · have := (ih m).mp h'
                exact ⟨Or.inr this.1, Nat.succ_lt_succ this.2⟩
            · rintro ⟨h1 | h1, h2⟩
              · exact absurd h1.symm hb
              · exact Or.inr ((ih m).mpr ⟨h1, Nat.lt_of_succ_lt_succ h2⟩)

/-! ## Counter lemmas -/

namespace Counter

theorem cnt_incr [DecidableEq K] (c : Counter K) (k j : K) :
    cnt (incr c k) j = cnt c j + (if j = k then 1 else 0) := by
  induction c with
  | nil =>
      by_cases hj : j = k
      · simp [incr, cnt, hj]
      · have : k ≠ j := fun h => hj h.symm
        simp [incr, cnt, hj, this]
  | cons p rest ih =>
      obtain ⟨k', n⟩ := p
      by_cases hk : k' = k
      · subst hk
        by_cases hj : j = k'
        · simp [incr, cnt, hj]
        · have : k' ≠ j := fun h => hj h.symm
          simp [incr, cnt, this, hj]
      · by_cases hj : k' = j
        · have hjk : j ≠ k := fun h => hk (hj.trans h)
          simp [incr, cnt, hk, hj, hjk]
        · simp [incr, cnt, hk, hj, ih]

theorem total_incr [DecidableEq K] (c : Counter K) (k : K) :
    total (incr c k) = total c + 1 := by
  induction c with
  | nil => simp [incr, total]
  | cons p rest ih =>
      obtain ⟨k', n⟩ := p
      by_cases hk : k' = k
      · simp [incr, total, hk]
        omega
      · simp only [incr, hk, ite_false, total, List.map_cons, List.sum_cons]
        have := ih
        simp only [total] at this
        omega

theorem keys_incr_mem [DecidableEq K] (c : Counter K) (k : K)
    (h : k ∈ c.map Prod.fst) :
    (incr c k).map Prod.fst = c.map Prod.fst := by
  induction c with
  | nil => cases h
  | cons p rest ih =>
      obtain ⟨k', n⟩ := p
      by_cases hk : k' = k
      · simp [incr, hk]
      · have : k ∈ rest.map Prod.fst := by
          rcases List.mem_cons.mp h with h' | h'
          · exact absurd h'.symm hk
          · exact h'
        simp [incr, hk, ih this]

theorem keys_incr_not_mem [DecidableEq K] (c : Counter K) (k : K)
    (h : k ∉ c.map Prod.fst) :
    (incr c k).map Prod.fst = c.map Prod.fst ++ [k] := by
  induction c with
  | nil => simp [incr]
  | cons p rest ih =>
      obtain ⟨k', n⟩ := p
      have hk : k' ≠ k := by
        intro hkk
        exact h (by simp [hkk])
      have h' : k ∉ rest.map Prod.fst := fun hm => h (by simp [hm])
      simp [incr, hk, ih h']

theorem mem_keys_incr [DecidableEq K] (c : Counter K) (k j : K) :
    j ∈ (incr c k).map Prod.fst ↔ j ∈ c.map Prod.fst ∨ j = k := by
  by_cases h : k ∈ c.map Prod.fst
  · rw [keys_incr_mem c k h]
    constructor
    · exact Or.inl
    · rintro (hj | hj)
      · exact hj
      · exact hj ▸ h
  · rw [keys_incr_not_mem c k h]
    simp

theorem nodup_keys_incr [DecidableEq K] (c : Counter K) (k : K)
    (h : (c.map Prod.fst).Nodup) :
    ((incr c k).map Prod.fst).Nodup := by
  by_cases hm : k ∈ c.map Prod.fst
  · rwa [keys_incr_mem c k hm]
  · rw [keys_incr_not_mem c k hm]
    simp [List.nodup_append, h, hm]

theorem counts_pos_incr [DecidableEq K] (c : Counter K) (k : K)
    (h : ∀ p ∈ c, 1 ≤ p.2) : ∀ p ∈ incr c k, 1 ≤ p.2 := by
  induction c with
  | nil =>
      intro p hp
      simp only [incr, List.mem_singleton] at hp
      simp [hp]
  | cons q rest ih =>
      obtain ⟨k', n⟩ := q
      intro p hp
      by_cases hk : k' = k
      · simp only [incr, hk, ite_true, List.mem_cons] at hp
        rcases hp with hp | hp
        · simp [hp]
        · exact h p (List.mem_cons_of_mem _ hp)
      · simp only [incr, hk, ite_false, List.mem_cons] at hp
        rcases hp with hp | hp
        · exact hp ▸ h _ (List.mem_cons_self _ _)
        · exact ih (fun q hq => h q (List.mem_cons_of_mem _ hq)) p hp

/-- With distinct keys, an entry's stored count is the lookup result. -/
theorem cnt_of_mem [DecidableEq K] (c : Counter K) (k : K) (n : Nat)
    (hnd : (c.map Prod.fst).Nodup) (h : (k, n) ∈ c) : cnt c k = n := by
  induction c with
  | nil => cases h
  | cons p rest ih =>
      obtain ⟨k', m⟩ := p
      rcases List.mem_cons.mp h with h' | h'
      · injection h' with h1 h2
        subst h1
        subst h2
        simp [cnt]
      · have hk : k' ≠ k := by
          intro hkk
          subst hkk
          have : k' ∈ rest.map Prod.fst :=
            List.mem_map.mpr ⟨(k', n), h', rfl⟩
          exact (List.nodup_cons.mp hnd).1 this
        simp [cnt, hk, ih (List.nodup_cons.mp hnd).2 h']

theorem cnt_eq_zero_of_not_mem [DecidableEq K] (c : Counter K) (k : K)
    (h : k ∉ c.map Prod.fst) : cnt c k = 0 := by
  induction c with
  | nil => rfl
  | cons p rest ih =>
      obtain ⟨k', n⟩ := p
      have hk : k' ≠ k := by
        intro hkk
        exact h (by simp [hkk])
      have h' : k ∉ rest.map Prod.fst := fun hm => h (by simp [hm])
      simp [cnt, hk, ih h']

theorem mem_keys_of_cnt_pos [DecidableEq K] (c : Counter K) (k : K)
    (h : 0 < cnt c k) : k ∈ c.map Prod.fst := by
  by_contra hm
  rw [cnt_eq_zero_of_not_mem c k hm] at h
  exact Nat.lt_irrefl 0 h

theorem cnt_pos_of_mem_keys [DecidableEq K] (c : Counter K) (k : K)
    (hpos : ∀ p ∈ c, 1 ≤ p.2) (h : k ∈ c.map Prod.fst) : 1 ≤ cnt c k := by
  induction c with
  | nil => cases h
  | cons p rest ih =>
      obtain ⟨k', n⟩ := p
      by_cases hk : k' = k
      · have : 1 ≤ n := hpos (k', n) (List.mem_cons_self _ _)
        simp [cnt, hk, this]
      · have h' : k ∈ rest.map Prod.fst := by
          rcases List.mem_cons.mp h with h'' | h''
          · exact absurd h''.symm hk
          · exact h''
        simp only [cnt, hk, ite_false]
        exact ih (fun q hq => hpos q (List.mem_cons_of_mem _ hq)) h'

/-- Splitting a counter at a key: the in-place bump of `incr`. -/
theorem incr_split [DecidableEq K] (pre post : Counter K) (k : K) (m : Nat)
    (h : k ∉ pre.map Prod.fst) :
    incr (pre ++ (k, m) :: post) k = pre ++ (k, m + 1) :: post := by
  induction pre with
  | nil => simp [incr]
  | cons p rest ih =>
      obtain ⟨k', n⟩ := p
      have hk : k' ≠ k := by
        intro hkk
        exact h (by simp [hkk])
      have h' : k ∉ rest.map Prod.fst := fun hm => h (by simp [hm])
      simp [incr, hk, ih h']

theorem incr_not_mem [DecidableEq K] (c : Counter K) (k : K)
    (h : k ∉ c.map Prod.fst) : incr c k = c ++ [(k, 1)] := by
  induction c with
  | nil => simp [incr]
  | cons p rest ih =>
      obtain ⟨k', n⟩ := p
      have hk : k' ≠ k := by
        intro hkk
        exact h (by simp [hkk])
      have h' : k ∉ rest.map Prod.fst := fun hm => h (by simp [hm])
      simp [incr, hk, ih h']

/-- Any member key splits the counter around its (first) entry. -/
theorem mem_split [DecidableEq K] (c : Counter K) (k : K)
    (h : k ∈ c.map Prod.fst) :
    ∃ pre n post, c = pre ++ (k, n) :: post ∧ k ∉ pre.map Prod.fst := by
  induction c with
  | nil => cases h
  | cons p rest ih =>
      obtain ⟨k', n⟩ := p
      by_cases hk : k' = k
      · exact ⟨[], n, rest, by simp [hk], by simp⟩
      · have h' : k ∈ rest.map Prod.fst := by
          rcases List.mem_cons.mp h with h'' | h''
          · exact absurd h''.symm hk
          · exact h''
        obtain ⟨pre, m, post, heq, hpre⟩ := ih h'
        refine ⟨(k', n) :: pre, m, post, by simp [heq], ?_⟩
        simp only [List.map_cons, List.mem_cons, not_or]
        exact ⟨fun hkk => hk hkk.symm, hpre⟩

theorem cnt_split [DecidableEq K] (pre post : Counter K) (k : K) (m : Nat)
    (h : k ∉ pre.map Prod.fst) :
    cnt (pre ++ (k, m) :: post) k = m := by
  induction pre with
  | nil => simp [cnt]
  | cons p rest ih =>
      obtain ⟨k', n⟩ := p
      have hk : k' ≠ k := by
        intro hkk
        exact h (by simp [hkk])
      have h' : k ∉ rest.map Prod.fst := fun hm => h (by simp [hm])
      simp [cnt, hk, ih h']

/-! Folding a stream of keys into a counter. -/

theorem cnt_foldl [DecidableEq K] (ks : List K) (c : Counter K) (j : K) :
    cnt (ks.foldl incr c) j = cnt c j + occCount j ks := by
  induction ks generalizing c with
  | nil => simp [occCount]
  | cons k ks ih =>
      simp only [List.foldl_cons, ih, cnt_incr, occCount]
      by_cases hj : j = k
      · subst hj
        simp
        omega
      · have hk : k ≠ j := fun h => hj h.symm
        simp [hj, hk]

theorem total_foldl [DecidableEq K] (ks : List K) (c : Counter K) :
    total (ks.foldl incr c) = total c + ks.length := by
  induction ks generalizing c with
  | nil => simp
  | cons k ks ih =>
      simp only [List.foldl_cons, ih, total_incr, List.length_cons]
      omega

theorem mem_keys_foldl [DecidableEq K] (ks : List K) (c : Counter K) (j : K) :
    j ∈ (ks.foldl incr c).map Prod.fst ↔ j ∈ c.map Prod.fst ∨ j ∈ ks := by
  induction ks generalizing c with
  | nil => simp
  | cons k ks ih =>
      simp only [List.foldl_cons, ih, mem_keys_incr, List.mem_cons]
      tauto

theorem nodup_keys_foldl [DecidableEq K] (ks : List K) (c : Counter K)
    (h : (c.map Prod.fst).Nodup) : ((ks.foldl incr c).map Prod.fst).Nodup := by
  induction ks generalizing c with
  | nil => exact h
  | cons k ks ih => exact ih _ (nodup_keys_incr c k h)

theorem counts_pos_foldl [DecidableEq K] (ks : List K) (c : Counter K)
    (h : ∀ p ∈ c, 1 ≤ p.2) : ∀ p ∈ ks.foldl incr c, 1 ≤ p.2 := by
  induction ks generalizing c with
  | nil => exact h
  | cons k ks ih => exact ih _ (counts_pos_incr c k h)

theorem nodup_keys_build [DecidableEq K] (ks : List K) :
    ((build ks).map Prod.fst).Nodup :=
  nodup_keys_foldl ks [] (by simp)

theorem counts_pos_build [DecidableEq K] (ks : List K) :
    ∀ p ∈ build ks, 1 ≤ p.2 :=
  counts_pos_foldl ks [] (by simp)

theorem cnt_build [DecidableEq K] (ks : List K) (j : K) :
    cnt (build ks) j = occCount j ks := by
  simpa [build, cnt] using cnt_foldl ks [] j

theorem mem_keys_build [DecidableEq K] (ks : List K) (j : K) :
    j ∈ (build ks).map Prod.fst ↔ j ∈ ks := by
  simpa [build] using mem_keys_foldl ks [] j

theorem total_build [DecidableEq K] (ks : List K) :
    total (build ks) = ks.length := by
  simpa [build, total] using total_foldl ks []

theorem build_concat [DecidableEq K] (ks : List K) (k : K) :
    build (ks ++ [k]) = incr (build ks) k := by
  simp [build, List.foldl_append]

end Counter

/-! ## most_common: stable sort by count descending, then take -/

/-- The items of a counter sorted by count descending (stable). -/
def sortedCounter (c : Counter K) : Counter K :=
  sortRank (fun p => p.2) c

/-- `Counter.most_common(n)`: the `n` entries of highest count, count
descending, ties in insertion (= first observed) order. -/
def mostCommon (c : Counter K) (n : Nat) : Counter K :=
  (sortedCounter c).take n

theorem perm_sortedCounter (c : Counter K) : List.Perm (sortedCounter c) c :=
  perm_sortRank _ c

theorem pairwise_sortedCounter (c : Counter K) :
    (sortedCounter c).Pairwise (fun a b => b.2 ≤ a.2) :=
  pairwise_sortRank _ c

theorem length_mostCommon (c : Counter K) (n : Nat) :
    (mostCommon c n).length = min n c.length := by
  simp [mostCommon, List.length_take, (perm_sortedCounter c).length_eq]

theorem mostCommon_sublist (c : Counter K) (n : Nat) :
    List.Sublist (mostCommon c n) (sortedCounter c) :=
  List.take_sublist n _

/-- The head of the sorted counter has a maximal count. -/
theorem head_max_sorted (c : Counter K) (p : K × Nat) (t : List (K × Nat))
    (h : sortedCounter c = p :: t) : ∀ q ∈ c, q.2 ≤ p.2 := by
  intro q hq
  have hmem : q ∈ p :: t := h ▸ (perm_sortedCounter c).symm.subset hq
  rcases List.mem_cons.mp hmem with h' | h'
  · exact h' ▸ Nat.le_refl _
  · have hp := h ▸ pairwise_sortedCounter c
    exact (List.pairwise_cons.mp hp).1 q h'

/-- Stability transfer: two equal-count entries adjacent-in-order in the
sorted counter occur in the same relative order inside the counter itself. -/
theorem tie_sublist_counter [DecidableEq K] (c : Counter K) (k₁ k₂ : K)
    (n : Nat) (h : List.Sublist [(k₁, n), (k₂, n)] (sortedCounter c)) :
    List.Sublist [(k₁, n), (k₂, n)] c := by
  have h1 := h.filter (fun y => decide (y.2 = n))
  rw [show sortedCounter c = sortRank (fun p => p.2) c from rfl,
    filter_sortRank] at h1
  simp only [List.filter, decide_eq_true_eq] at h1
  have h2 : List.Sublist [(k₁, n), (k₂, n)]
      (c.filter (fun y => decide (y.2 = n))) := by
    simpa using h1
  exact h2.trans (List.filter_sublist c)

/-- From an ordered pair of keys recover an ordered pair of entries. -/
theorem keypair_of_keys_sublist [DecidableEq K] (c : Counter K) (a b : K)
    (h : List.Sublist [a, b] (c.map Prod.fst)) :
    ∃ n₁ n₂, List.Sublist [(a, n₁), (b, n₂)] c := by
  induction c with
  | nil => cases h
  | cons p rest ih =>
      obtain ⟨k, m⟩ := p
      rw [List.map_cons] at h
      cases h with
      | cons _ h' =>
          obtain ⟨n₁, n₂, hs⟩ := ih h'
          exact ⟨n₁, n₂, hs.cons (k, m)⟩
      | cons₂ _ h' =>
          have hb : b ∈ rest.map Prod.fst := (List.singleton_sublist).mp h'
          obtain ⟨q, hq, hqb⟩ := List.mem_map.mp hb
          refine ⟨m, q.2, ?_⟩
          have : List.Sublist [(b, q.2)] rest := by
            rw [List.singleton_sublist]
            have : q = (b, q.2) := by
              obtain ⟨q1, q2⟩ := q
              simp only at hqb
              simp [hqb]
            exact this ▸ hq
          exact this.cons₂ (k, m)

/-- A two-element sublist of `l ++ [c]` is a sublist of `l`, or ends at `c`. -/
theorem pair_sublist_concat (a b c : α) (l : List α)
    (h : List.Sublist [a, b] (l ++ [c])) :
    List.Sublist [a, b] l ∨ (b = c ∧ a ∈ l) := by
  induction l with
  | nil =>
      have := h.length_le
      simp at this
  | cons d l ih =>
      rw [List.cons_append] at h
      cases h with
      | cons _ h' =>
          rcases ih h' with h'' | ⟨hb, ha⟩
          · exact Or.inl (h''.cons d)
          · exact Or.inr ⟨hb, List.mem_cons_of_mem d ha⟩
      | cons₂ _ h' =>
          have hb : b ∈ l ++ [c] := (List.singleton_sublist).mp h'
          rcases List.mem_append.mp hb with hb' | hb'
          · exact Or.inl (((List.singleton_sublist).mpr hb').cons₂ a)
          · have hbc : b = c := by simpa using hb'
            exact Or.inr ⟨hbc, List.mem_cons_self a l⟩

/-- Keys of a built counter are listed in first-observed order: an ordered
pair of counter keys has strictly ordered first occurrences in the stream. -/
theorem build_keys_first_observed [DecidableEq K] (ks : List K) (k₁ k₂ : K)
    (h : List.Sublist [k₁, k₂] ((Counter.build ks).map Prod.fst)) :
    idxOf k₁ ks < idxOf k₂ ks := by
  induction ks using List.reverseRecOn with
  | nil =>
      have := h.length_le
      simp [Counter.build] at this
  | append_singleton l a ih =>
      rw [Counter.build_concat] at h
      by_cases ha : a ∈ (Counter.build l).map Prod.fst
      · rw [Counter.keys_incr_mem _ _ ha] at h
        have h1 := ih h
        have hk₁ : k₁ ∈ l :=
          (Counter.mem_keys_build l k₁).mp (h.subset (by simp))
        have hk₂ : k₂ ∈ l :=
          (Counter.mem_keys_build l k₂).mp (h.subset (by simp))
        rw [idxOf_append_left k₁ l [a] hk₁, idxOf_append_left k₂ l [a] hk₂]
        exact h1
      · rw [Counter.keys_incr_not_mem _ _ ha] at h
        rcases pair_sublist_concat k₁ k₂ a _ h with h' | ⟨hb, hmem⟩
        · have h1 := ih h'
          have hk₁ : k₁ ∈ l :=
            (Counter.mem_keys_build l k₁).mp (h'.subset (by simp))
          have hk₂ : k₂ ∈ l :=
            (Counter.mem_keys_build l k₂).mp (h'.subset (by simp))
          rw [idxOf_append_left k₁ l [a] hk₁, idxOf_append_left k₂ l [a] hk₂]
          exact h1
        · have hk₁ : k₁ ∈ l := (Counter.mem_keys_build l k₁).mp hmem
          have hal : a ∉ l := fun hx =>
            ha ((Counter.mem_keys_build l a).mpr hx)
          subst hb
          rw [idxOf_append_left k₁ l [k₂] hk₁,
            idxOf_append_right k₂ l [k₂] hal]
          have := idxOf_lt_length k₁ l hk₁
          simp only [idxOf, ite_true]
          omega

/-! ## Position of a key in the sorted counter -/

theorem idxOf_take [DecidableEq α] (a : α) (l : List α) (n : Nat)
    (h : a ∈ l.take n) : idxOf a (l.take n) = idxOf a l := by
  conv_rhs => rw [← List.take_append_drop n l]
  rw [idxOf_append_left a _ _ h]

/-- Characterisation of a key's position in the count-descending stable
sort: the number of strictly-higher-count entries plus the key's position
inside the block of equal-count entries (which keeps counter order). -/
theorem idx_char [DecidableEq K] (c : Counter K) (k : K)
    (hnd : (c.map Prod.fst).Nodup) (hk : k ∈ c.map Prod.fst) :
    idxOf k ((sortedCounter c).map Prod.fst)
      = (c.filter (fun y => decide (Counter.cnt c k < y.2))).length
        + idxOf k ((c.filter (fun y => decide (y.2 = Counter.cnt c k))).map
            Prod.fst) := by
  set m := Counter.cnt c k with hm
  have hdec := sorted_three_way (fun p : K × Nat => p.2) (sortedCounter c) m
    (pairwise_sortedCounter c)
  set A := (sortedCounter c).filter (fun y => decide (m < y.2)) with hA
  set B := (sortedCounter c).filter (fun y => decide (y.2 = m)) with hB
  set C := (sortedCounter c).filter (fun y => decide (y.2 < m)) with hC
  have hBc : B = c.filter (fun y => decide (y.2 = m)) := by
    rw [hB]
    exact filter_sortRank _ c m
  -- the unique entry for k is (k, m)
  have hq' : (k, m) ∈ c := by
    obtain ⟨⟨q1, q2⟩, hq, hqk⟩ := List.mem_map.mp hk
    simp only at hqk
    have h2 := Counter.cnt_of_mem c q1 q2 hnd hq
    rw [hqk] at hq h2
    rw [hm, h2]
    exact hq
  -- k is not among the strictly-larger block
  have hkA : k ∉ A.map Prod.fst := by
    intro hmem
    obtain ⟨⟨p1, p2⟩, hp, hpk⟩ := List.mem_map.mp hmem
    simp only at hpk
    have hps : (p1, p2) ∈ sortedCounter c := List.mem_of_mem_filter hp
    have hpc : (p1, p2) ∈ c := (perm_sortedCounter c).subset hps
    have hcnt := Counter.cnt_of_mem c p1 p2 hnd hpc
    rw [hpk] at hcnt
    have hlt := List.of_mem_filter hp
    simp only [decide_eq_true_eq] at hlt
    omega
  -- k is in the equal block
  have hkB : k ∈ B.map Prod.fst := by
    refine List.mem_map.mpr ⟨(k, m), ?_, rfl⟩
    rw [hBc]
    exact List.mem_filter.mpr ⟨hq', by simp⟩
  have hsplit : (sortedCounter c).map Prod.fst
      = A.map Prod.fst ++ (B.map Prod.fst ++ C.map Prod.fst) := by
    rw [← List.map_append, ← List.map_append]
    congr 1
    rw [← List.append_assoc]
    exact hdec.symm
  rw [hsplit, idxOf_append_right k _ _ hkA, idxOf_append_left k _ _ hkB]
  have hAlen : A.length = (c.filter (fun y => decide (m < y.2))).length :=
    ((perm_sortedCounter c).filter _).length_eq
  rw [List.length_map, hAlen, hBc]

/-! ## Filter-length bookkeeping for the rank-monotonicity argument -/

theorem flen_split (l : Counter K) (m : Nat) :
    (l.filter (fun y => decide (m < y.2))).length
      = (l.filter (fun y => decide (m + 1 < y.2))).length
        + (l.filter (fun y => decide (y.2 = m + 1))).length := by
  induction l with
  | nil => simp
  | cons p rest ih =>
      rcases Nat.lt_trichotomy (m + 1) p.2 with h | h | h
      · have h1 : m < p.2 := by omega
        have h2 : p.2 ≠ m + 1 := by omega
        simp [List.filter_cons, h, h1, h2, ih]
        omega
      · have h1 : m < p.2 := by omega
        have h2 : ¬ (m + 1 < p.2) := by omega
        simp [List.filter_cons, h.symm, h1, h2, ih]
        omega
      · have h1 : ¬ (m < p.2) := by omega
        have h2 : ¬ (m + 1 < p.2) := by omega
        have h3 : p.2 ≠ m + 1 := by omega
        simp [List.filter_cons, h1, h2, h3, ih]

theorem flen_mono (l : Counter K) (m : Nat) :
    (l.filter (fun y => decide (m + 1 < y.2))).length
      ≤ (l.filter (fun y => decide (m < y.2))).length := by
  rw [flen_split l m]
  omega

theorem not_mem_keys_filter [DecidableEq K] (l : Counter K)
    (p : K × Nat → Bool) (k : K) (h : k ∉ l.map Prod.fst) :
    k ∉ (l.filter p).map Prod.fst := by
  intro hm
  obtain ⟨q, hq, hqk⟩ := List.mem_map.mp hm
  exact h (List.mem_map.mpr ⟨q, List.mem_of_mem_filter hq, hqk⟩)

/-- Bumping a key's count never moves that key later in the
count-descending stable order. -/
theorem idx_incr_self_le [DecidableEq K] (c : Counter K) (k : K)
    (hnd : (c.map Prod.fst).Nodup) (hk : k ∈ c.map Prod.fst) :
    idxOf k ((sortedCounter (Counter.incr c k)).map Prod.fst)
      ≤ idxOf k ((sortedCounter c).map Prod.fst) := by
  obtain ⟨pre, n, post, hc, hpre⟩ := Counter.mem_split c k hk
  have hm : Counter.cnt c k = n := by
    rw [hc]; exact Counter.cnt_split pre post k n hpre
  have hincr : Counter.incr c k = pre ++ (k, n + 1) :: post := by
    rw [hc]; exact Counter.incr_split pre post k n hpre
  have hnd' : ((Counter.incr c k).map Prod.fst).Nodup :=
    Counter.nodup_keys_incr c k hnd
  have hk' : k ∈ (Counter.incr c k).map Prod.fst :=
    (Counter.mem_keys_incr c k k).mpr (Or.inr rfl)
  have hm' : Counter.cnt (Counter.incr c k) k = n + 1 := by
    rw [hincr]; exact Counter.cnt_split pre post k (n + 1) hpre
  rw [idx_char c k hnd hk, idx_char _ k hnd' hk', hm, hm', hincr, hc]
  have hpre1 := not_mem_keys_filter pre (fun y => decide (y.2 = n + 1)) k
    (by
      intro hx
      exact hpre (by simpa using hx))
  have hpre2 := not_mem_keys_filter pre (fun y => decide (y.2 = n)) k
    (by
      intro hx
      exact hpre (by simpa using hx))
  have f1 : ¬ (n + 1 < n + 1) := by omega
  have f2 : ¬ (n < n) := by omega
  simp only [List.filter_append, List.filter_cons, Prod.snd]
  simp only [f1, f2, decide_eq_true_eq, ite_false, ite_true, if_pos, if_neg,
    not_false_iff]
  simp only [List.map_append, List.map_cons]
  rw [idxOf_append_right k _ _ hpre1, idxOf_append_right k _ _ hpre2]
  simp only [idxOf, ite_true]
  have hs := flen_split pre n
  have hmn := flen_mono post n
  simp only [List.length_map, List.length_append]
  omega

/-- Bumping key `k` leaves the position of any key whose count exceeds
`k`'s new count unchanged (`k` stays strictly below it). -/
theorem idx_incr_other_eq [DecidableEq K] (c : Counter K) (k B : K)
    (hnd : (c.map Prod.fst).Nodup) (hk : k ∈ c.map Prod.fst)
    (hB : B ∈ c.map Prod.fst)
    (hfar : Counter.cnt c k + 1 < Counter.cnt c B) :
    idxOf B ((sortedCounter (Counter.incr c k)).map Prod.fst)
      = idxOf B ((sortedCounter c).map Prod.fst) := by
  obtain ⟨pre, n, post, hc, hpre⟩ := Counter.mem_split c k hk
  have hm : Counter.cnt c k = n := by
    rw [hc]; exact Counter.cnt_split pre post k n hpre
  have hincr : Counter.incr c k = pre ++ (k, n + 1) :: post := by
    rw [hc]; exact Counter.incr_split pre post k n hpre
  have hne : B ≠ k := by
    intro h
    rw [h] at hfar
    omega
  have hnd' : ((Counter.incr c k).map Prod.fst).Nodup :=
    Counter.nodup_keys_incr c k hnd
  have hB' : B ∈ (Counter.incr c k).map Prod.fst :=
    (Counter.mem_keys_incr c k B).mpr (Or.inl hB)
  have hcntB' : Counter.cnt (Counter.incr c k) B = Counter.cnt c B := by
    rw [Counter.cnt_incr]
    simp [hne]
  rw [idx_char c B hnd hB, idx_char _ B hnd' hB', hcntB', hincr]
  rw [hm] at hfar
  set mB := Counter.cnt c B with hmB
  rw [hc]
  have g1 : ¬ (mB < n) := by omega
  have g2 : ¬ (mB < n + 1) := by omega
  have g3 : ¬ ((n : Nat) = mB) := by omega
  have g4 : ¬ ((n : Nat) + 1 = mB) := by omega
  simp only [List.filter_append, List.filter_cons, Prod.snd]
  simp [g1, g2, g3, g4]

/-- Appending a brand-new key leaves the position of any key of count at
least 2 unchanged. -/
theorem idx_concat_new_eq [DecidableEq K] (c : Counter K) (k B : K)
    (hnd : (c.map Prod.fst).Nodup) (hkn : k ∉ c.map Prod.fst)
    (hB : B ∈ c.map Prod.fst) (h2 : 2 ≤ Counter.cnt c B) :
    idxOf B ((sortedCounter (Counter.incr c k)).map Prod.fst)
      = idxOf B ((sortedCounter c).map Prod.fst) := by
  have hincr := Counter.incr_not_mem c k hkn
  have hne : B ≠ k := fun h => hkn (h ▸ hB)
  have hnd' : ((Counter.incr c k).map Prod.fst).Nodup :=
    Counter.nodup_keys_incr c k hnd
  have hB' : B ∈ (Counter.incr c k).map Prod.fst :=
    (Counter.mem_keys_incr c k B).mpr (Or.inl hB)
  have hcntB' : Counter.cnt (Counter.incr c k) B = Counter.cnt c B := by
    rw [Counter.cnt_incr]
    simp [hne]
  rw [idx_char c B hnd hB, idx_char _ B hnd' hB', hcntB', hincr]
  have g1 : ¬ (Counter.cnt c B < 1) := by omega
  have g2 : ¬ ((1 : Nat) = Counter.cnt c B) := by omega
  simp only [List.filter_append, List.filter_cons, List.filter_nil,
    Prod.snd]
  simp [g1, g2]

/-! ## Decoded input lines

The model speaks about the stream of decoded JSON lines.  Parsing one raw
line (json.loads, datetime.fromisoformat) is external plumbing; its
*outcome* is what each constructor below records. -/

/-- The `date` field as consumed by q1_memory: `tweet.get('date', '')`
followed by `datetime.fromisoformat(date_str.replace('Z', '+00:00'))`. -/
inductive DateF where
  /-- Field missing or the empty string: the `if not date_str` guard skips. -/
  | absent
  /-- Non-empty string rejected by fromisoformat: ValueError, caught, line skipped. -/
  | malformed
  /-- Parses; `d` encodes the extracted calendar date. -/
  | parsed (d : Nat)
deriving DecidableEq

/-- The `user` field as consumed by `tweet.get('user', {}).get('username', '')`. -/
inductive UserF where
  /-- No user field: the `{}` default, so username is the empty string. -/
  | absent
  /-- User maps to a JSON value that is not an object: `.get` on it raises
  AttributeError, which no except clause of the source catches. -/
  | nonDict
  /-- User object; `username` is the empty string when missing or empty. -/
  | obj (username : String)
deriving DecidableEq

/-- One decoded tweet object.  Text bodies are lists of Unicode code points
so that the emoji scanner can look inside them. -/
structure Tweet where
  date : DateF
  user : UserF
  /-- `content` field; none when absent or null. -/
  content : Option (List Nat)
  /-- `renderedContent` field; none when absent or null. -/
  renderedContent : Option (List Nat)
  /-- Decoded `mentionedUsers` array: `none` entries are elements that are
  not a dict with a `username` key (skipped by the isinstance guard);
  an absent / null / empty array is the empty list. -/
  mentionedUsers : List (Option String)
deriving DecidableEq

/-- One line of the newline-delimited JSON input. -/
inductive Jline where
  /-- json.loads raises JSONDecodeError: caught and skipped. -/
  | bad
  /-- Valid JSON that is not an object (for example `[1, 2]` or `5`):
  `tweet.get(...)` raises AttributeError, which is never caught. -/
  | nonObj
  /-- A JSON object, decoded. -/
  | obj (t : Tweet)
deriving DecidableEq

/-! ## The emoji pattern (q2_memory.py / q2_time.py)

EMOJI_PATTERN is
`[\p{Emoji_Presentation}\p{Extended_Pictographic}](?:️)?(?:‍[...]️?)*`.
The Unicode property class is external data supplied by the regex library;
the scanner below is parameterised by that classifier `eb` and implements
the pattern's greedy matching and the left-to-right `findall` scan.  The
scan carries explicit fuel (one unit per consumed position); the wrapper
passes the string length, which is always sufficient. -/

/-- U+FE0F, the emoji variation selector. -/
def FE0F : Nat := 0xFE0F

/-- U+200D, the zero width joiner. -/
def ZWJ : Nat := 0x200D

/-- The greedy `(?:‍[base]️?)*` tail: returns the consumed
prefix and the remainder. -/
def zwjChain (eb : Nat → Bool) : List Nat → List Nat × List Nat
  | a :: b :: c :: rest =>
      if a = ZWJ ∧ eb b then
        if c = FE0F then
          let r := zwjChain eb rest
          (a :: b :: c :: r.1, r.2)
        else
          let r := zwjChain eb (c :: rest)
          (a :: b :: r.1, r.2)
      else ([], a :: b :: c :: rest)
  | [a, b] => if a = ZWJ ∧ eb b then ([a, b], []) else ([], [a, b])
  | l => ([], l)

/-- After a matched base character: the optional FE0F, then the ZWJ tail. -/
def glyphAfterBase (eb : Nat → Bool) : List Nat → List Nat × List Nat
  | [] => ([], [])
  | c :: rest =>
      if c = FE0F then
        let r := zwjChain eb rest
        (c :: r.1, r.2)
      else zwjChain eb (c :: rest)

/-- The findall scan: at each position, emit the greedy match starting
there if the head is a base character, else advance one position. -/
def emojiScan (eb : Nat → Bool) : Nat → List Nat → List (List Nat)
  | 0, _ => []
  | _ + 1, [] => []
  | fuel + 1, c :: rest =>
      if eb c then
        (c :: (glyphAfterBase eb rest).1)
          :: emojiScan eb fuel (glyphAfterBase eb rest).2
      else emojiScan eb fuel rest

/-- `EMOJI_PATTERN.findall(s)`. -/
def emojiFindall (eb : Nat → Bool) (s : List Nat) : List (List Nat) :=
  emojiScan eb s.length s

theorem zwjChain_snd_le (eb : Nat → Bool) (l : List Nat) :
    (zwjChain eb l).2.length ≤ l.length := by
  induction l using zwjChain.induct eb <;>
    simp_all [zwjChain, -not_and] <;> omega

theorem glyphAfterBase_snd_le (eb : Nat → Bool) (l : List Nat) :
    (glyphAfterBase eb l).2.length ≤ l.length := by
  match l with
  | [] => simp [glyphAfterBase]
  | c :: rest =>
      simp only [glyphAfterBase]
      split
      · exact Nat.le_trans (zwjChain_snd_le eb rest) (by simp)
      · exact zwjChain_snd_le eb (c :: rest)

/-- Fuel irrelevance of the scan: any fuel of at least the string length
gives the same result, so `emojiFindall` is the total findall. -/
theorem emojiScan_fuel (eb : Nat → Bool) (f₁ f₂ : Nat) (l : List Nat)
    (h₁ : l.length ≤ f₁) (h₂ : l.length ≤ f₂) :
    emojiScan eb f₁ l = emojiScan eb f₂ l := by
  induction f₁ generalizing l f₂ with
  | zero =>
      have : l = [] := List.length_eq_zero.mp (Nat.le_zero.mp h₁)
      subst this
      cases f₂ <;> simp [emojiScan]
  | succ f ih =>
      cases l with
      | nil => cases f₂ <;> simp [emojiScan]
      | cons c rest =>
          cases f₂ with
          | zero => simp at h₂
          | succ f' =>
              simp only [emojiScan]
              by_cases hc : eb c
              · simp only [hc, ite_true]
                have hr : (glyphAfterBase eb rest).2.length ≤ rest.length :=
                  glyphAfterBase_snd_le eb rest
                have hl : rest.length ≤ f := by
                  simpa using Nat.lt_succ_iff.mp (Nat.lt_of_lt_of_le
                    (by simp) h₁)
                have hl' : rest.length ≤ f' := by
                  simpa using Nat.lt_succ_iff.mp (Nat.lt_of_lt_of_le
                    (by simp) h₂)
                rw [ih f' _ (Nat.le_trans hr hl) (Nat.le_trans hr hl')]
              · simp only [hc, ite_false]
                have hl : rest.length ≤ f := by
                  simp only [List.length_cons] at h₁
                  omega
                have hl' : rest.length ≤ f' := by
                  simp only [List.length_cons] at h₂
                  omega
                exact ih f' rest hl hl'

/-! ## q2_memory (src/q2_memory.py) -/

/-- `tweet.get('content', '') or tweet.get('renderedContent', '')`. -/
def effContent (t : Tweet) : List Nat :=
  if t.content.getD [] = [] then t.renderedContent.getD []
  else t.content.getD []

/-- Loop body of q2_memory for one line. -/
def q2Step (eb : Nat → Bool) (c : Counter (List Nat)) :
    Jline → Except Unit (Counter (List Nat))
  | .bad => .ok c
  | .nonObj => .error ()
  | .obj t =>
      if effContent t = [] then .ok c
      else .ok ((emojiFindall eb (effContent t)).foldl Counter.incr c)

/-- The streaming loop of q2_memory. -/
def q2Pass (eb : Nat → Bool) (c : Counter (List Nat)) :
    List Jline → Except Unit (Counter (List Nat))
  | [] => .ok c
  | line :: rest =>
      match q2Step eb c line with
      | .error e => .error e
      | .ok c' => q2Pass eb c' rest

/-- q2_memory: stream the lines, then `emoji_counter.most_common(10)`. -/
def q2_memory (eb : Nat → Bool) (lines : List Jline) :
    Except Unit (List (List Nat × Nat)) :=
  match q2Pass eb [] lines with
  | .error e => .error e
  | .ok c => .ok (mostCommon c 10)

/-! ## q3_memory (src/q3_memory.py) -/

/-- Usernames contributed by one decoded mentionedUsers array: dict
entries with a non-empty username, in order. -/
def mentionKeys (t : Tweet) : List String :=
  t.mentionedUsers.filterMap (fun m =>
    match m with
    | none => none
    | some u => if u = "" then none else some u)

/-- Loop body of q3_memory for one line. -/
def q3Step (c : Counter String) : Jline → Except Unit (Counter String)
  | .bad => .ok c
  | .nonObj => .error ()
  | .obj t => .ok ((mentionKeys t).foldl Counter.incr c)

/-- The streaming loop of q3_memory. -/
def q3Pass (c : Counter String) : List Jline → Except Unit (Counter String)
  | [] => .ok c
  | line :: rest =>
      match q3Step c line with
      | .error e => .error e
      | .ok c' => q3Pass c' rest

/-- q3_memory: stream the lines, then `mention_counter.most_common(10)`. -/
def q3_memory (lines : List Jline) : Except Unit (List (String × Nat)) :=
  match q3Pass [] lines with
  | .error e => .error e
  | .ok c => .ok (mostCommon c 10)

/-! ## q1_memory (src/q1_memory.py) -/

/-- Aggregation state: `date_counts` and `date_user_counts`. -/
structure Q1State where
  date_counts : Counter Nat
  date_user_counts : List (Nat × Counter String)
deriving DecidableEq

/-- Both tables start empty. -/
def q1Init : Q1State := ⟨[], []⟩

/-- `date_user_counts[d][u] += 1` on the `defaultdict(Counter)`. -/
def nestedIncr (m : List (Nat × Counter String)) (d : Nat) (u : String) :
    List (Nat × Counter String) :=
  match m with
  | [] => [(d, [(u, 1)])]
  | (d', c) :: rest =>
      if d' = d then (d', Counter.incr c u) :: rest
      else (d', c) :: nestedIncr rest d u

/-- `date_user_counts[d]` as a read: the empty counter when absent
(defaultdict behaviour). -/
def nestedGet (m : List (Nat × Counter String)) (d : Nat) : Counter String :=
  match m with
  | [] => []
  | (d', c) :: rest => if d' = d then c else nestedGet rest d

/-- The two failure modes of q1_memory that escape its except clause. -/
inductive Q1Err where
  /-- AttributeError from `.get` on a non-object, during the pass. -/
  | attrError
  /-- IndexError from `most_common(1)[0]` on an empty author table. -/
  | indexError
deriving DecidableEq

/-- Loop body of q1_memory for one line, in source order: decode, date
guard, date parse, username guard, then the two increments. -/
def q1Step (s : Q1State) : Jline → Except Q1Err Q1State
  | .bad => .ok s
  | .nonObj => .error .attrError
  | .obj t =>
      match t.date with
      | .absent => .ok s
      | .malformed => .ok s
      | .parsed d =>
          match t.user with
          | .nonDict => .error .attrError
          | .absent => .ok s
          | .obj u =>
              if u = "" then .ok s
              else .ok ⟨Counter.incr s.date_counts d,
                        nestedIncr s.date_user_counts d u⟩

/-- The streaming loop of q1_memory. -/
def q1Pass (s : Q1State) : List Jline → Except Q1Err Q1State
  | [] => .ok s
  | line :: rest =>
      match q1Step s line with
      | .error e => .error e
      | .ok s' => q1Pass s' rest

/-- `date_user_counts[d].most_common(1)[0][0]` for one selected date:
IndexError when the author table is empty. -/
def topUserOf (s : Q1State) (d : Nat) : Except Q1Err (Nat × String) :=
  match mostCommon (nestedGet s.date_user_counts d) 1 with
  | [] => .error .indexError
  | (u, _) :: _ => .ok (d, u)

/-- Effectful map over a list, stopping at the first error (the result
loop of q1_memory). -/
def mapME (f : α → Except ε β) : List α → Except ε (List β)
  | [] => .ok []
  | a :: l =>
      match f a with
      | .error e => .error e
      | .ok b =>
          match mapME f l with
          | .error e => .error e
          | .ok bs => .ok (b :: bs)

/-- q1_memory: stream the lines, take the top 10 dates, resolve each
date's most active user. -/
def q1_memory (lines : List Jline) : Except Q1Err (List (Nat × String)) :=
  match q1Pass q1Init lines with
  | .error e => .error e
  | .ok s => mapME (topUserOf s) ((mostCommon s.date_counts 10).map Prod.fst)

/-! ## Key streams

The sequence of aggregation keys each statistic observes, in stream
order; the structural lemmas below show each pass's final counter is
`Counter.build` of its stream. -/

/-- The date key contributed by one line in q1_memory (at most one). -/
def q1LineKey : Jline → Option Nat
  | .obj t =>
      match t.date, t.user with
      | .parsed d, .obj u => if u = "" then none else some d
      | _, _ => none
  | _ => none

/-- The date key stream of q1_memory. -/
def q1DateKeys (lines : List Jline) : List Nat :=
  lines.filterMap q1LineKey

/-- The author key contributed by one line to date `d`'s nested table. -/
def q1UserKey (d : Nat) : Jline → Option String
  | .obj t =>
      match t.date, t.user with
      | .parsed d', .obj u =>
          if u = "" then none else if d' = d then some u else none
      | _, _ => none
  | _ => none

/-- The author key stream of date `d` in q1_memory. -/
def q1UserKeys (lines : List Jline) (d : Nat) : List String :=
  lines.filterMap (q1UserKey d)

/-- The emoji occurrences contributed by one line in q2_memory. -/
def q2LineKeys (eb : Nat → Bool) : Jline → List (List Nat)
  | .obj t =>
      if effContent t = [] then [] else emojiFindall eb (effContent t)
  | _ => []

/-- The emoji occurrence stream of q2_memory. -/
def q2Keys (eb : Nat → Bool) (lines : List Jline) : List (List Nat) :=
  (lines.map (q2LineKeys eb)).flatten

/-- The mention occurrences contributed by one line in q3_memory. -/
def q3LineKeys : Jline → List String
  | .obj t => mentionKeys t
  | _ => []

/-- The mention occurrence stream of q3_memory. -/
def q3Keys (lines : List Jline) : List String :=
  (lines.map q3LineKeys).flatten

/-! ## Structural lemmas: each pass builds the counter of its key stream -/

theorem q3Pass_ok (lines : List Jline) (c c' : Counter String)
    (h : q3Pass c lines = .ok c') :
    c' = (q3Keys lines).foldl Counter.incr c := by
  induction lines generalizing c with
  | nil =>
      simp only [q3Pass] at h
      cases h
      simp [q3Keys]
  | cons line rest ih =>
      cases line with
      | bad =>
          simp only [q3Pass, q3Step] at h
          simpa [q3Keys, q3LineKeys] using ih c h
      | nonObj => simp [q3Pass, q3Step] at h
      | obj t =>
          simp only [q3Pass, q3Step] at h
          have := ih _ h
          simpa [q3Keys, q3LineKeys, List.foldl_append] using this

theorem q2Pass_ok (eb : Nat → Bool) (lines : List Jline)
    (c c' : Counter (List Nat)) (h : q2Pass eb c lines = .ok c') :
    c' = (q2Keys eb lines).foldl Counter.incr c := by
  induction lines generalizing c with
  | nil =>
      simp only [q2Pass] at h
      cases h
      simp [q2Keys]
  | cons line rest ih =>
      cases line with
      | bad =>
          simp only [q2Pass, q2Step] at h
          simpa [q2Keys, q2LineKeys] using ih c h
      | nonObj => simp [q2Pass, q2Step] at h
      | obj t =>
          by_cases hc : effContent t = []
          · simp only [q2Pass, q2Step, hc, ite_true, if_pos] at h
            simpa [q2Keys, q2LineKeys, hc] using ih c h
          · simp only [q2Pass, q2Step, hc, ite_false, if_neg,
              not_false_iff] at h
            have := ih _ h
            simpa [q2Keys, q2LineKeys, hc, List.foldl_append] using this

theorem nestedGet_nestedIncr (m : List (Nat × Counter String)) (d : Nat)
    (u : String) (d' : Nat) :
    nestedGet (nestedIncr m d u) d'
      = if d' = d then Counter.incr (nestedGet m d') u else nestedGet m d' := by
  induction m with
  | nil =>
      by_cases h : d' = d
      · simp [nestedIncr, nestedGet, h, Counter.incr]
      · have : d ≠ d' := fun hh => h hh.symm
        simp [nestedIncr, nestedGet, h, this]
  | cons p rest ih =>
      obtain ⟨d₁, c⟩ := p
      by_cases h1 : d₁ = d
      · by_cases h2 : d₁ = d'
        · have : d' = d := h2 ▸ h1
          simp [nestedIncr, nestedGet, h1, h2, this]
        · have h3 : ¬ (d' = d) := fun hh => h2 (h1.trans hh.symm)
          have h4 : ¬ (d = d') := fun hh => h3 hh.symm
          simp [nestedIncr, nestedGet, h1, h2, h3, h4]
      · by_cases h2 : d₁ = d'
        · have : ¬ (d' = d) := fun hh => h1 (h2.trans hh)
          simp [nestedIncr, nestedGet, h1, h2, this]
        · simp [nestedIncr, nestedGet, h1, h2, ih]

theorem q1Pass_ok (lines : List Jline) (s s' : Q1State)
    (h : q1Pass s lines = .ok s') :
    s'.date_counts = (q1DateKeys lines).foldl Counter.incr s.date_counts
      ∧ ∀ d, nestedGet s'.date_user_counts d
          = (q1UserKeys lines d).foldl Counter.incr
              (nestedGet s.date_user_counts d) := by
  induction lines generalizing s with
  | nil =>
      simp only [q1Pass] at h
      cases h
      simp [q1DateKeys, q1UserKeys]
  | cons line rest ih =>
      cases line with
      | bad =>
          simp only [q1Pass, q1Step] at h
          simpa [q1DateKeys, q1UserKeys, q1LineKey, q1UserKey] using ih _ h
      | nonObj => simp [q1Pass, q1Step] at h
      | obj t =>
          cases hd : t.date with
          | absent =>
              simp only [q1Pass, q1Step, hd] at h
              simpa [q1DateKeys, q1UserKeys, q1LineKey, q1UserKey, hd]
                using ih _ h
          | malformed =>
              simp only [q1Pass, q1Step, hd] at h
              simpa [q1DateKeys, q1UserKeys, q1LineKey, q1UserKey, hd]
                using ih _ h
          | parsed dd =>
              cases hu : t.user with
              | nonDict => simp [q1Pass, q1Step, hd, hu] at h
              | absent =>
                  simp only [q1Pass, q1Step, hd, hu] at h
                  simpa [q1DateKeys, q1UserKeys, q1LineKey, q1UserKey, hd, hu]
                    using ih _ h
              | obj u =>
                  by_cases hue : u = ""
                  · simp only [q1Pass, q1Step, hd, hu, hue, ite_true,
                      if_pos] at h
                    simpa [q1DateKeys, q1UserKeys, q1LineKey, q1UserKey,
                      hd, hu, hue] using ih _ h
                  · simp only [q1Pass, q1Step, hd, hu, hue, ite_false,
                      if_neg, not_false_iff] at h
                    obtain ⟨ih1, ih2⟩ := ih _ h
                    constructor
                    · simpa [q1DateKeys, q1LineKey, hd, hu, hue] using ih1
                    · intro d
                      have h2 := ih2 d
                      simp only [nestedGet_nestedIncr] at h2
                      by_cases hdd : dd = d
                      · have hdd' : d = dd := hdd.symm
                        simp only [q1UserKeys, q1UserKey, hd, hu, hue,
                          List.filterMap_cons, hdd, ite_true, ite_false,
                          if_neg, not_false_iff] at h2 ⊢
                        simp only [hdd', ite_true] at h2 ⊢
                        simpa [hue, hdd] using h2
                      · have hdd' : ¬ (d = dd) := fun hh => hdd hh.symm
                        simp only [q1UserKeys, q1UserKey, hd, hu, hue,
                          List.filterMap_cons] at h2 ⊢
                        simp only [hdd', ite_false] at h2 ⊢
                        simpa [hue, hdd, hdd'] using h2

/-! ## mapME lemmas -/

theorem mapME_ok_mem (f : α → Except ε β) (l : List α) (out : List β)
    (h : mapME f l = .ok out) : ∀ b ∈ out, ∃ a ∈ l, f a = .ok b := by
  induction l generalizing out with
  | nil =>
      simp only [mapME] at h
      cases h
      simp
  | cons a rest ih =>
      simp only [mapME] at h
      cases hfa : f a with
      | error e => rw [hfa] at h; cases h
      | ok b =>
          rw [hfa] at h
          cases hrest : mapME f rest with
          | error e => rw [hrest] at h; cases h
          | ok bs =>
              rw [hrest] at h
              cases h
              intro b' hb'
              rcases List.mem_cons.mp hb' with hb' | hb'
              · exact ⟨a, List.mem_cons_self a rest, hb' ▸ hfa⟩
              · obtain ⟨a', ha', hfa'⟩ := ih bs hrest b' hb'
                exact ⟨a', List.mem_cons_of_mem a ha', hfa'⟩

theorem mapME_ok_of_all_ok (f : α → Except ε β) (l : List α)
    (h : ∀ a ∈ l, ∃ b, f a = .ok b) : ∃ out, mapME f l = .ok out := by
  induction l with
  | nil => exact ⟨[], rfl⟩
  | cons a rest ih =>
      obtain ⟨b, hb⟩ := h a (List.mem_cons_self a rest)
      obtain ⟨bs, hbs⟩ := ih (fun x hx => h x (List.mem_cons_of_mem a hx))
      exact ⟨b :: bs, by simp [mapME, hb, hbs]⟩

/-- When every element maps to a pair with itself as first component, the
output's first components are exactly the input list. -/
theorem mapME_fst {ε : Type} (f : α → Except ε (α × β)) (l : List α)
    (out : List (α × β)) (hf : ∀ a p, f a = .ok p → p.1 = a)
    (h : mapME f l = .ok out) : out.map Prod.fst = l := by
  induction l generalizing out with
  | nil =>
      simp only [mapME] at h
      cases h
      simp
  | cons a rest ih =>
      simp only [mapME] at h
      cases hfa : f a with
      | error e => rw [hfa] at h; cases h
      | ok b =>
          rw [hfa] at h
          cases hrest : mapME f rest with
          | error e => rw [hrest] at h; cases h
          | ok bs =>
              rw [hrest] at h
              cases h
              simp [hf a b hfa, ih bs hrest]

/-- Unfolding a successful q1_memory run. -/
theorem q1_memory_ok (lines : List Jline) (out : List (Nat × String))
    (h : q1_memory lines = .ok out) :
    ∃ s, q1Pass q1Init lines = .ok s
      ∧ mapME (topUserOf s) ((mostCommon s.date_counts 10).map Prod.fst)
          = .ok out := by
  cases hp : q1Pass q1Init lines with
  | error e => rw [q1_memory, hp] at h; cases h
  | ok s =>
      rw [q1_memory, hp] at h
      exact ⟨s, rfl, h⟩

/-- Unfolding a successful q2_memory run. -/
theorem q2_memory_ok (eb : Nat → Bool) (lines : List Jline)
    (out : List (List Nat × Nat)) (h : q2_memory eb lines = .ok out) :
    out = mostCommon (Counter.build (q2Keys eb lines)) 10 := by
  cases hp : q2Pass eb [] lines with
  | error e => rw [q2_memory, hp] at h; cases h
  | ok c =>
      rw [q2_memory, hp] at h
      cases h
      rw [q2Pass_ok eb lines [] c hp]
      rfl

/-- Unfolding a successful q3_memory run. -/
theorem q3_memory_ok (lines : List Jline) (out : List (String × Nat))
    (h : q3_memory lines = .ok out) :
    out = mostCommon (Counter.build (q3Keys lines)) 10 := by
  cases hp : q3Pass [] lines with
  | error e => rw [q3_memory, hp] at h; cases h
  | ok c =>
      rw [q3_memory, hp] at h
      cases h
      rw [q3Pass_ok lines [] c hp]
      rfl

/-! ## q1_time (src/q1_time.py): relational model of the DuckDB query -/

/-- One row of the `parsed` CTE: `CAST(substr(date, 1, 10) AS DATE)` and
`json_extract_string(user, '$.username')`; either can be NULL. -/
structure Row where
  date : Option Nat
  username : Option String
deriving DecidableEq

/-- The `date_counts` CTE: `COUNT(*)` grouped by date (a NULL date forms
its own group).  SQL leaves the relative order of equal-count groups
unspecified; the model resolves such ties by first appearance. -/
def rowsDateCounter (rows : List Row) : Counter (Option Nat) :=
  rows.foldl (fun c r => Counter.incr c r.date) []

/-- The per-date `user_counts` aggregation after the inner join
`p.date = dc.date` (NULL never compares equal, so NULL dates drop out). -/
def userCounterFor (rows : List Row) (d : Nat) : Counter (Option String) :=
  rows.foldl
    (fun c r => if r.date = some d then Counter.incr c r.username else c) []

/-- `ROW_NUMBER() OVER (PARTITION BY date ORDER BY COUNT(*) DESC) = 1`:
a username of maximal count for the date (equal counts resolved by first
appearance in the model). -/
def topUserTime (rows : List Row) (d : Nat) : Option (Option String) :=
  match mostCommon (userCounterFor rows d) 1 with
  | [] => none
  | (u, _) :: _ => some u

/-- q1_time: top-10 dates by volume, their top user, then the final
`ORDER BY date DESC` of the outer SELECT. -/
def q1_time (rows : List Row) : List (Nat × Option String) :=
  sortRank (fun p => p.1)
    ((mostCommon (rowsDateCounter rows) 10).filterMap (fun p =>
      match p.1 with
      | none => none
      | some d => (topUserTime rows d).map (fun u => (d, u))))

/-! ## Derived facts about most_common -/

theorem pairwise_mostCommon (c : Counter K) (n : Nat) :
    (mostCommon c n).Pairwise (fun p q => q.2 ≤ p.2) :=
  (pairwise_sortedCounter c).sublist (mostCommon_sublist c n)

theorem mostCommon_entry_mem (c : Counter K) (n : Nat) (p : K × Nat)
    (h : p ∈ mostCommon c n) : p ∈ c :=
  (perm_sortedCounter c).subset ((mostCommon_sublist c n).subset h)

theorem mostCommon_entry_cnt [DecidableEq K] (c : Counter K) (n : Nat)
    (k : K) (m : Nat) (hnd : (c.map Prod.fst).Nodup)
    (h : (k, m) ∈ mostCommon c n) : Counter.cnt c k = m :=
  Counter.cnt_of_mem c k m hnd (mostCommon_entry_mem c n (k, m) h)

/-- `most_common(1)` returning an entry exposes the head of the sort. -/
theorem mostCommon_one (c : Counter K) (u : K) (m : Nat)
    (rest : List (K × Nat)) (h : mostCommon c 1 = (u, m) :: rest) :
    ∃ t, sortedCounter c = (u, m) :: t := by
  cases hs : sortedCounter c with
  | nil => rw [mostCommon, hs] at h; cases h
  | cons p t =>
      rw [mostCommon, hs] at h
      simp only [List.take] at h
      cases h
      exact ⟨t, rfl⟩

/-- Every count in a distinct-keyed counter is bounded by the count of
the head of the sorted counter. -/
theorem cnt_le_of_sorted_head [DecidableEq K] (c : Counter K) (u : K)
    (m : Nat) (t : List (K × Nat)) (hnd : (c.map Prod.fst).Nodup)
    (hs : sortedCounter c = (u, m) :: t) (u' : K) :
    Counter.cnt c u' ≤ m := by
  by_cases hm : u' ∈ c.map Prod.fst
  · obtain ⟨⟨a, b⟩, hab, hfst⟩ := List.mem_map.mp hm
    simp only at hfst
    subst hfst
    rw [Counter.cnt_of_mem c a b hnd hab]
    exact head_max_sorted c (u, m) t hs (a, b) hab
  · rw [Counter.cnt_eq_zero_of_not_mem c u' hm]
    exact Nat.zero_le m

theorem mem_keys_sorted [DecidableEq K] (c : Counter K) (j : K) :
    j ∈ (sortedCounter c).map Prod.fst ↔ j ∈ c.map Prod.fst :=
  ((perm_sortedCounter c).map Prod.fst).mem_iff

theorem mem_keys_mostCommon (c : Counter K) (n : Nat) (j : K)
    (h : j ∈ (mostCommon c n).map Prod.fst) : j ∈ c.map Prod.fst := by
  obtain ⟨p, hp, hpj⟩ := List.mem_map.mp h
  exact List.mem_map.mpr ⟨p, mostCommon_entry_mem c n p hp, hpj⟩

/-- The number of entries of a built counter is the number of distinct
keys observed in the stream. -/
theorem build_length_dedup [DecidableEq K] (ks : List K) :
    (Counter.build ks).length = ks.dedup.length := by
  have h1 : ((Counter.build ks).map Prod.fst).Nodup :=
    Counter.nodup_keys_build ks
  have h2 : ks.dedup.Nodup := List.nodup_dedup ks
  have h3 : ∀ a, a ∈ (Counter.build ks).map Prod.fst ↔ a ∈ ks.dedup := by
    intro a
    rw [Counter.mem_keys_build, List.mem_dedup]
  have hperm := (List.perm_ext_iff_of_nodup h1 h2).mpr h3
  have := hperm.length_eq
  simpa using this

/-! ## Further q1 bookkeeping -/

/-- A record with a parsed date but an empty or absent username leaves
the whole q1 aggregation state unchanged. -/
theorem q1Step_skip (s : Q1State) (t : Tweet) (d : Nat)
    (hd : t.date = .parsed d) (hu : t.user = .obj "" ∨ t.user = .absent) :
    q1Step s (.obj t) = .ok s := by
  rcases hu with hu | hu <;> simp [q1Step, hd, hu]

theorem q1Pass_insert (pre post : List Jline) (l : Jline)
    (hl : ∀ s, q1Step s l = .ok s) (s : Q1State) :
    q1Pass s (pre ++ l :: post) = q1Pass s (pre ++ post) := by
  induction pre generalizing s with
  | nil =>
      simp only [List.nil_append, q1Pass, hl s]
  | cons a pre ih =>
      simp only [List.cons_append, q1Pass]
      cases q1Step s a with
      | error e => rfl
      | ok s' => exact ih s'

/-- Each record contributes to the date stream exactly when it
contributes to that date's author stream. -/
theorem q1_stream_count (lines : List Jline) (d : Nat) :
    occCount d (q1DateKeys lines) = (q1UserKeys lines d).length := by
  induction lines with
  | nil => rfl
  | cons line rest ih =>
      cases line with
      | bad =>
          simpa [q1DateKeys, q1UserKeys, q1LineKey, q1UserKey,
            List.filterMap_cons] using ih
      | nonObj =>
          simpa [q1DateKeys, q1UserKeys, q1LineKey, q1UserKey,
            List.filterMap_cons] using ih
      | obj t =>
          cases hd : t.date with
          | absent =>
              simpa [q1DateKeys, q1UserKeys, q1LineKey, q1UserKey,
                List.filterMap_cons, hd] using ih
          | malformed =>
              simpa [q1DateKeys, q1UserKeys, q1LineKey, q1UserKey,
                List.filterMap_cons, hd] using ih
          | parsed dd =>
              cases hu : t.user with
              | nonDict =>
                  simpa [q1DateKeys, q1UserKeys, q1LineKey, q1UserKey,
                    List.filterMap_cons, hd, hu] using ih
              | absent =>
                  simpa [q1DateKeys, q1UserKeys, q1LineKey, q1UserKey,
                    List.filterMap_cons, hd, hu] using ih
              | obj u =>
                  by_cases hue : u = ""
                  · simpa [q1DateKeys, q1UserKeys, q1LineKey, q1UserKey,
                      List.filterMap_cons, hd, hu, hue] using ih
                  · by_cases hdd : dd = d
                    · simp only [q1DateKeys, q1UserKeys, q1LineKey,
                        q1UserKey, List.filterMap_cons, hd, hu, hue,
                        ite_false, hdd, ite_true, occCount,
                        List.length_cons]
                      simp only [q1DateKeys, q1UserKeys] at ih
                      simp [hue, hdd, ih]
                      omega
                    · have hdd' : ¬ (d = dd) := fun h => hdd h.symm
                      simp only [q1DateKeys, q1UserKeys, q1LineKey,
                        q1UserKey, List.filterMap_cons, hd, hu, hue,
                        ite_false, hdd, occCount]
                      simp only [q1DateKeys, q1UserKeys] at ih
                      simp [hue, hdd, hdd', ih]

/-- The streaming loop can only fail with AttributeError. -/
theorem q1Step_error (s : Q1State) (line : Jline) (e : Q1Err)
    (h : q1Step s line = .error e) : e = Q1Err.attrError := by
  cases line with
  | bad => simp [q1Step] at h
  | nonObj =>
      simp only [q1Step] at h
      exact (Except.error.inj h).symm
  | obj t =>
      cases hd : t.date with
      | absent => simp [q1Step, hd] at h
      | malformed => simp [q1Step, hd] at h
      | parsed dd =>
          cases hu : t.user with
          | nonDict =>
              simp only [q1Step, hd, hu] at h
              exact (Except.error.inj h).symm
          | absent => simp [q1Step, hd, hu] at h
          | obj u =>
              by_cases hue : u = "" <;> simp [q1Step, hd, hu, hue] at h

theorem q1Pass_error (lines : List Jline) (s : Q1State) (e : Q1Err)
    (h : q1Pass s lines = .error e) : e = Q1Err.attrError := by
  induction lines generalizing s with
  | nil => simp [q1Pass] at h
  | cons line rest ih =>
      simp only [q1Pass] at h
      cases hstep : q1Step s line with
      | error e' =>
          rw [hstep] at h
          have he : e' = e := Except.error.inj h
          exact he ▸ q1Step_error s line e' hstep
      | ok s' =>
          rw [hstep] at h
          exact ih s' h

/-- The resolver keeps the date it was asked about. -/
theorem topUserOf_fst (s : Q1State) (d : Nat) (p : Nat × String)
    (h : topUserOf s d = .ok p) : p.1 = d := by
  unfold topUserOf at h
  cases hm : mostCommon (nestedGet s.date_user_counts d) 1 with
  | nil => rw [hm] at h; cases h
  | cons q rest =>
      rw [hm] at h
      obtain ⟨q1, q2⟩ := q
      cases h
      rfl

/-- Shape of a successful resolution: the returned author heads the
sorted author table of that date. -/
theorem topUserOf_ok (s : Q1State) (d : Nat) (d' : Nat) (u : String)
    (h : topUserOf s d = .ok (d', u)) :
    d' = d ∧ ∃ m rest,
      mostCommon (nestedGet s.date_user_counts d) 1 = (u, m) :: rest := by
  unfold topUserOf at h
  cases hm : mostCommon (nestedGet s.date_user_counts d) 1 with
  | nil => rw [hm] at h; cases h
  | cons q rest =>
      rw [hm] at h
      obtain ⟨q1, q2⟩ := q
      cases h
      exact ⟨rfl, q2, rest, rfl⟩

/-- `user_counts` of q1_time as a built counter. -/
theorem userCounterFor_build (rows : List Row) (d : Nat) :
    userCounterFor rows d
      = Counter.build
          ((rows.filter (fun r => decide (r.date = some d))).map
            Row.username) := by
  rw [userCounterFor, Counter.build]
  generalize ([] : Counter (Option String)) = c
  induction rows generalizing c with
  | nil => rfl
  | cons r rest ih =>
      by_cases hr : r.date = some d
      · simp [List.filter_cons, hr, List.foldl_cons, ih]
      · simp [List.filter_cons, hr, List.foldl_cons, ih]

/-- The §3 invariant as a lemma: for every state reached by the q1 pass,
a date's top-level count equals the sum of its nested author counts. -/
theorem q1_sum_eq (lines : List Jline) (s : Q1State)
    (h : q1Pass q1Init lines = .ok s) (d : Nat) :
    Counter.cnt s.date_counts d
      = Counter.total (nestedGet s.date_user_counts d) := by
  obtain ⟨h1, h2⟩ := q1Pass_ok lines q1Init s h
  rw [h1, h2 d]
  have e1 : nestedGet q1Init.date_user_counts d = [] := rfl
  have e2 : q1Init.date_counts = ([] : Counter Nat) := rfl
  rw [e1, e2, Counter.cnt_foldl, Counter.total_foldl]
  have e3 : Counter.cnt ([] : Counter Nat) d = 0 := rfl
  have e4 : Counter.total ([] : Counter String) = 0 := rfl
  rw [e3, e4]
  simpa using q1_stream_count lines d

/-! ## Sample inputs, used by witnesses and counterexamples -/

/-- Sample record: date `d`, author `u`, nothing else. -/
def recDU (d : Nat) (u : String) : Jline :=
  .obj ⟨.parsed d, .obj u, none, none, []⟩

/-- Sample record mentioning each of `us` once, in order. -/
def recM (us : List String) : Jline :=
  .obj ⟨.absent, .absent, none, none, us.map some⟩

/-- Sample record whose body is the code-point list `s`. -/
def recC (s : List Nat) : Jline :=
  .obj ⟨.absent, .absent, some s, none, []⟩

/-- Sample emoji classifier for concrete runs: code points 100 and 101
are base emoji characters. -/
def ebS : Nat → Bool := fun c => c == 100 || c == 101

/-! ## Claims -/

/-- C7: the spec says only a missing/unreadable input path is fatal and no
individual malformed line ever aborts a run.  The code violates this: a
line holding valid JSON that is not an object (for example `[1, 2]`)
makes `tweet.get(...)` raise AttributeError, which none of the three
streaming implementations catches, aborting the whole run.  This theorem
evaluates all three at the failing input. -/
theorem c7_nonobject_line_fatal :
    q1_memory [Jline.nonObj] = .error Q1Err.attrError
      ∧ q3_memory [Jline.nonObj] = .error ()
      ∧ ∀ eb, q2_memory eb [Jline.nonObj] = .error () :=
  ⟨rfl, rfl, fun _ => rfl⟩

/-- C10: in q1_memory a record is counted only when it has both a parsed
date and a non-empty username: inserting a record with a valid date but
empty or absent username anywhere leaves the entire result unchanged, and
each date's total counts exactly the records passing both guards (the
stream `q1DateKeys`, whose definition requires a non-empty username). -/
theorem c10_empty_username (lines₁ lines₂ : List Jline) (t : Tweet) (d : Nat)
    (hd : t.date = .parsed d) (hu : t.user = .obj "" ∨ t.user = .absent) :
    q1_memory (lines₁ ++ .obj t :: lines₂) = q1_memory (lines₁ ++ lines₂)
      ∧ ∀ lines s d', q1Pass q1Init lines = .ok s →
          Counter.cnt s.date_counts d' = occCount d' (q1DateKeys lines) := by
  constructor
  · unfold q1_memory
    rw [q1Pass_insert lines₁ lines₂ (.obj t)
      (fun s => q1Step_skip s t d hd hu) q1Init]
  · intro lines s d' h
    obtain ⟨h1, _⟩ := q1Pass_ok lines q1Init s h
    rw [h1]
    have e2 : q1Init.date_counts = ([] : Counter Nat) := rfl
    rw [e2, Counter.cnt_foldl]
    simp [Counter.cnt]

/-- Witness for C10 at a concrete input: a record with date 1 and empty
username inserted after a record with date 1 and author x changes
nothing, and date 1's count stays 1. -/
theorem c10_empty_username_witness :
    (Tweet.mk (.parsed 1) (.obj "") none none []).date = .parsed 1
    ∧ ((Tweet.mk (.parsed 1) (.obj "") none none []).user = .obj ""
        ∨ (Tweet.mk (.parsed 1) (.obj "") none none []).user = .absent)
    ∧ q1_memory ([recDU 1 "x"]
          ++ .obj (Tweet.mk (.parsed 1) (.obj "") none none []) :: [])
        = q1_memory ([recDU 1 "x"] ++ [])
    ∧ q1Pass q1Init [recDU 1 "x"] = .ok ⟨[(1, 1)], [(1, [("x", 1)])]⟩
    ∧ Counter.cnt (Q1State.mk [(1, 1)] [(1, [("x", 1)])]).date_counts 1
        = occCount 1 (q1DateKeys [recDU 1 "x"]) := by
  refine ⟨rfl, Or.inl rfl, ?_, rfl, ?_⟩
  · exact (c10_empty_username [recDU 1 "x"] []
      (Tweet.mk (.parsed 1) (.obj "") none none []) 1 rfl (Or.inl rfl)).1
  · exact (c10_empty_username [recDU 1 "x"] []
      (Tweet.mk (.parsed 1) (.obj "") none none []) 1 rfl (Or.inl rfl)).2
      [recDU 1 "x"] _ 1 rfl

/-- C5: at every point during and after the q1 pass (the state after
any prefix of the input is `q1Pass q1Init` of that prefix), every date's
top-level count equals the sum of its nested author counts (both are 0
for unseen dates). -/
theorem c5_nested_sum (lines p : List Jline) (s : Q1State)
    (hpre : p <+: lines) (h : q1Pass q1Init p = .ok s) (d : Nat) :
    Counter.cnt s.date_counts d
      = Counter.total (nestedGet s.date_user_counts d) :=
  q1_sum_eq p s h d

/-- Witness for C5 at a concrete prefix of a concrete input. -/
theorem c5_nested_sum_witness :
    ([recDU 1 "x"] <+: [recDU 1 "x", recDU 2 "y"])
    ∧ q1Pass q1Init [recDU 1 "x"] = .ok ⟨[(1, 1)], [(1, [("x", 1)])]⟩
    ∧ Counter.cnt (Q1State.mk [(1, 1)] [(1, [("x", 1)])]).date_counts 1
        = Counter.total
            (nestedGet (Q1State.mk [(1, 1)] [(1, [("x", 1)])]).date_user_counts
              1) := by
  refine ⟨⟨[recDU 2 "y"], rfl⟩, rfl, ?_⟩
  exact c5_nested_sum [recDU 1 "x", recDU 2 "y"] [recDU 1 "x"] _
    ⟨[recDU 2 "y"], rfl⟩ rfl 1

/-- C6: the empty-nested-table branch of the resolver is unreachable:
a q1_memory run either aborts with the AttributeError of C7 during the
pass or returns a result list; it never returns the IndexError of
`most_common(1)[0]` on an empty author table. -/
theorem c6_no_index_error (lines : List Jline) :
    q1_memory lines = .error Q1Err.attrError
      ∨ ∃ out, q1_memory lines = .ok out := by
  cases hp : q1Pass q1Init lines with
  | error e =>
      left
      have he := q1Pass_error lines q1Init e hp
      rw [q1_memory, hp, he]
  | ok s =>
      right
      obtain ⟨h1, _h2⟩ := q1Pass_ok lines q1Init s hp
      have hdc : s.date_counts = Counter.build (q1DateKeys lines) := h1
      have hres : ∀ d ∈ (mostCommon s.date_counts 10).map Prod.fst,
          ∃ b, topUserOf s d = .ok b := by
        intro d hd
        have hdk : d ∈ s.date_counts.map Prod.fst :=
          mem_keys_mostCommon _ 10 d hd
        have hpos : 1 ≤ Counter.cnt s.date_counts d := by
          rw [hdc] at hdk ⊢
          exact Counter.cnt_pos_of_mem_keys _ d
            (Counter.counts_pos_build _) hdk
        have heq := q1_sum_eq lines s hp d
        have hne : nestedGet s.date_user_counts d ≠ [] := by
          intro hnil
          rw [hnil] at heq
          have e4 : Counter.total ([] : Counter String) = 0 := rfl
          rw [e4] at heq
          omega
        cases hs : sortedCounter (nestedGet s.date_user_counts d) with
        | nil =>
            exfalso
            apply hne
            have hl := (perm_sortedCounter
              (nestedGet s.date_user_counts d)).length_eq
            rw [hs] at hl
            exact List.length_eq_zero.mp hl.symm
        | cons q t =>
            obtain ⟨q1, q2⟩ := q
            exact ⟨(d, q1), by simp [topUserOf, mostCommon, hs]⟩
      obtain ⟨out, hout⟩ := mapME_ok_of_all_ok _ _ hres
      exact ⟨out, by rw [q1_memory, hp]; exact hout⟩

/-- C2 (amended): for each statistic the sum of all counts in the final
count table equals the total number of extracted key occurrences — the
length of the key stream — not the number of records with a non-empty
extraction.  For q1, whose extractor yields at most one key per record,
the two notions coincide. -/
theorem c2_amended :
    (∀ lines s, q1Pass q1Init lines = .ok s →
        Counter.total s.date_counts = (q1DateKeys lines).length)
    ∧ (∀ (eb : Nat → Bool) lines c, q2Pass eb [] lines = .ok c →
        Counter.total c = (q2Keys eb lines).length)
    ∧ (∀ lines c, q3Pass [] lines = .ok c →
        Counter.total c = (q3Keys lines).length) := by
  refine ⟨?_, ?_, ?_⟩
  · intro lines s h
    obtain ⟨h1, _⟩ := q1Pass_ok lines q1Init s h
    rw [h1]
    have e2 : q1Init.date_counts = ([] : Counter Nat) := rfl
    rw [e2, Counter.total_foldl]
    simp [Counter.total]
  · intro eb lines c h
    rw [q2Pass_ok eb lines [] c h, Counter.total_foldl]
    simp [Counter.total]
  · intro lines c h
    rw [q3Pass_ok lines [] c h, Counter.total_foldl]
    simp [Counter.total]

/-- Counterexample for C2 as stated: one record mentioning two users
gives a count table summing to 2, while exactly 1 record had a non-empty
extraction; 2 ≠ 1. -/
theorem c2_counterexample :
    q3_memory [recM ["a", "b"]] = .ok [("a", 1), ("b", 1)]
      ∧ q3Pass [] [recM ["a", "b"]] = .ok [("a", 1), ("b", 1)]
      ∧ Counter.total [("a", 1), ("b", 1)] = 2
      ∧ (List.filter (fun l => decide (q3LineKeys l ≠ []))
            [recM ["a", "b"]]).length = 1
      ∧ (2 : Nat) ≠ 1 :=
  ⟨rfl, rfl, rfl, rfl, by omega⟩

/-- Witness for the amended C2 at concrete inputs. -/
theorem c2_amended_witness :
    q1Pass q1Init [recDU 1 "x"] = .ok ⟨[(1, 1)], [(1, [("x", 1)])]⟩
    ∧ Counter.total (Q1State.mk [(1, 1)] [(1, [("x", 1)])]).date_counts
        = (q1DateKeys [recDU 1 "x"]).length
    ∧ q3Pass [] [recM ["a", "b"]] = .ok [("a", 1), ("b", 1)]
    ∧ Counter.total [("a", 1), ("b", 1)] = (q3Keys [recM ["a", "b"]]).length
    ∧ q2Pass ebS [] [recC [100, 101]] = .ok [([100], 1), ([101], 1)]
    ∧ Counter.total [([100], 1), ([101], 1)]
        = (q2Keys ebS [recC [100, 101]]).length := by
  refine ⟨rfl, ?_, rfl, ?_, rfl, ?_⟩
  · exact c2_amended.1 [recDU 1 "x"] _ rfl
  · exact c2_amended.2.2 [recM ["a", "b"]] _ rfl
  · exact c2_amended.2.1 ebS [recC [100, 101]] _ rfl

/-- C8: each statistic returns `min 10 (number of distinct keys
observed)` pairs, and an empty input yields the empty list for all
three statistics rather than an error. -/
theorem c8_result_length :
    (∀ lines out, q1_memory lines = .ok out →
        out.length = min 10 (q1DateKeys lines).dedup.length)
    ∧ (∀ (eb : Nat → Bool) lines out, q2_memory eb lines = .ok out →
        out.length = min 10 (q2Keys eb lines).dedup.length)
    ∧ (∀ lines out, q3_memory lines = .ok out →
        out.length = min 10 (q3Keys lines).dedup.length)
    ∧ q1_memory [] = .ok []
    ∧ (∀ eb, q2_memory eb [] = .ok [])
    ∧ q3_memory [] = .ok [] := by
  refine ⟨?_, ?_, ?_, rfl, fun _ => rfl, rfl⟩
  · intro lines out h
    obtain ⟨s, hp, hm⟩ := q1_memory_ok lines out h
    obtain ⟨h1, _⟩ := q1Pass_ok lines q1Init s hp
    have hdc : s.date_counts = Counter.build (q1DateKeys lines) := h1
    have hfst := mapME_fst (topUserOf s) _ out (topUserOf_fst s) hm
    calc out.length = (out.map Prod.fst).length := by simp
      _ = ((mostCommon s.date_counts 10).map Prod.fst).length := by
          rw [hfst]
      _ = (mostCommon s.date_counts 10).length := by simp
      _ = min 10 s.date_counts.length := length_mostCommon _ 10
      _ = min 10 (q1DateKeys lines).dedup.length := by
          rw [hdc, build_length_dedup]
  · intro eb lines out h
    rw [q2_memory_ok eb lines out h, length_mostCommon, build_length_dedup]
  · intro lines out h
    rw [q3_memory_ok lines out h, length_mostCommon, build_length_dedup]

/-- Witness for C8 at concrete inputs. -/
theorem c8_result_length_witness :
    q1_memory [recDU 1 "x", recDU 1 "x", recDU 2 "y"] = .ok [(1, "x"), (2, "y")]
    ∧ ([(1, "x"), (2, "y")] : List (Nat × String)).length
        = min 10 (q1DateKeys [recDU 1 "x", recDU 1 "x", recDU 2 "y"]).dedup.length
    ∧ q3_memory [recM ["a", "b"]] = .ok [("a", 1), ("b", 1)]
    ∧ ([("a", 1), ("b", 1)] : List (String × Nat)).length
        = min 10 (q3Keys [recM ["a", "b"]]).dedup.length
    ∧ q2_memory ebS [recC [100, 101, 100]] = .ok [([100], 2), ([101], 1)]
    ∧ ([([100], 2), ([101], 1)] : List (List Nat × Nat)).length
        = min 10 (q2Keys ebS [recC [100, 101, 100]]).dedup.length := by
  refine ⟨rfl, ?_, rfl, ?_, rfl, ?_⟩
  · exact c8_result_length.1 [recDU 1 "x", recDU 1 "x", recDU 2 "y"] _ rfl
  · exact c8_result_length.2.2.1 [recM ["a", "b"]] _ rfl
  · exact c8_result_length.2.1 ebS [recC [100, 101, 100]] _ rfl

/-- C1: the three memory implementations do return their list ordered by
descending governing count (first three conjuncts).  q1_time does not:
its outer SELECT ends in ORDER BY date DESC, so on an input whose busiest
date is not the latest date the result is ordered by calendar date, not
by tweet count — the final conjuncts evaluate the query model on such an
input (two tweets on date 1, one tweet on date 2: q1_time lists date 2
first even though its count 1 is below date 1's count 2), contradicting
q1_time's own docstring, which promises ordering by tweet volume. -/
theorem c1_ordering :
    (∀ lines out, q1_memory lines = .ok out →
        out.Pairwise (fun p q =>
          Counter.cnt (Counter.build (q1DateKeys lines)) q.1
            ≤ Counter.cnt (Counter.build (q1DateKeys lines)) p.1))
    ∧ (∀ (eb : Nat → Bool) lines out, q2_memory eb lines = .ok out →
        out.Pairwise (fun p q => q.2 ≤ p.2))
    ∧ (∀ lines out, q3_memory lines = .ok out →
        out.Pairwise (fun p q => q.2 ≤ p.2))
    ∧ q1_time [⟨some 1, some "a"⟩, ⟨some 1, some "a"⟩, ⟨some 2, some "b"⟩]
        = [(2, some "b"), (1, some "a")]
    ∧ Counter.cnt (rowsDateCounter [⟨some 1, some "a"⟩, ⟨some 1, some "a"⟩,
        ⟨some 2, some "b"⟩]) (some 1) = 2
    ∧ Counter.cnt (rowsDateCounter [⟨some 1, some "a"⟩, ⟨some 1, some "a"⟩,
        ⟨some 2, some "b"⟩]) (some 2) = 1 := by
  refine ⟨?_, ?_, ?_, rfl, rfl, rfl⟩
  · intro lines out h
    obtain ⟨s, hp, hm⟩ := q1_memory_ok lines out h
    obtain ⟨h1, _⟩ := q1Pass_ok lines q1Init s hp
    have hdc : s.date_counts = Counter.build (q1DateKeys lines) := h1
    have hnd : (s.date_counts.map Prod.fst).Nodup := by
      rw [hdc]; exact Counter.nodup_keys_build _
    have hfst := mapME_fst (topUserOf s) _ out (topUserOf_fst s) hm
    have hpw : (mostCommon s.date_counts 10).Pairwise
        (fun p q => Counter.cnt s.date_counts q.1
          ≤ Counter.cnt s.date_counts p.1) := by
      refine (pairwise_mostCommon s.date_counts 10).imp_of_mem ?_
      intro a b ha hb hab
      obtain ⟨a1, a2⟩ := a
      obtain ⟨b1, b2⟩ := b
      rw [mostCommon_entry_cnt _ 10 a1 a2 hnd ha,
        mostCommon_entry_cnt _ 10 b1 b2 hnd hb]
      exact hab
    have hkeys : ((mostCommon s.date_counts 10).map Prod.fst).Pairwise
        (fun a b => Counter.cnt s.date_counts b
          ≤ Counter.cnt s.date_counts a) :=
      List.pairwise_map.mpr hpw
    rw [← hfst] at hkeys
    have hout := List.pairwise_map.mp hkeys
    rw [hdc] at hout
    exact hout
  · intro eb lines out h
    rw [q2_memory_ok eb lines out h]
    exact pairwise_mostCommon _ 10
  · intro lines out h
    rw [q3_memory_ok lines out h]
    exact pairwise_mostCommon _ 10

/-- Witness for the universally quantified parts of C1 at concrete
inputs. -/
theorem c1_ordering_witness :
    q1_memory [recDU 1 "x", recDU 1 "x", recDU 2 "y"]
        = .ok [(1, "x"), (2, "y")]
    ∧ ([(1, "x"), (2, "y")] : List (Nat × String)).Pairwise (fun p q =>
        Counter.cnt (Counter.build
          (q1DateKeys [recDU 1 "x", recDU 1 "x", recDU 2 "y"])) q.1
          ≤ Counter.cnt (Counter.build
              (q1DateKeys [recDU 1 "x", recDU 1 "x", recDU 2 "y"])) p.1)
    ∧ q3_memory [recM ["a"], recM ["b", "a"]] = .ok [("a", 2), ("b", 1)]
    ∧ ([("a", 2), ("b", 1)] : List (String × Nat)).Pairwise
        (fun p q => q.2 ≤ p.2)
    ∧ q2_memory ebS [recC [100, 101, 100]] = .ok [([100], 2), ([101], 1)]
    ∧ ([([100], 2), ([101], 1)] : List (List Nat × Nat)).Pairwise
        (fun p q => q.2 ≤ p.2) := by
  refine ⟨rfl, ?_, rfl, ?_, rfl, ?_⟩
  · exact c1_ordering.1 [recDU 1 "x", recDU 1 "x", recDU 2 "y"] _ rfl
  · exact c1_ordering.2.2.1 [recM ["a"], recM ["b", "a"]] _ rfl
  · exact c1_ordering.2.1 ebS [recC [100, 101, 100]] _ rfl

/-- C4: every returned (date, author) pair of the date statistic carries
an author of maximal per-(date, author) count for that date, in both the
streaming and the SQL implementation (unobserved authors have count 0). -/
theorem c4_top_author :
    (∀ lines out d u, q1_memory lines = .ok out → (d, u) ∈ out →
        ∀ u', Counter.cnt (Counter.build (q1UserKeys lines d)) u'
          ≤ Counter.cnt (Counter.build (q1UserKeys lines d)) u)
    ∧ (∀ rows d u, (d, u) ∈ q1_time rows →
        ∀ u', Counter.cnt (userCounterFor rows d) u'
          ≤ Counter.cnt (userCounterFor rows d) u) := by
  constructor
  · intro lines out d u h hmem u'
    obtain ⟨s, hp, hm⟩ := q1_memory_ok lines out h
    obtain ⟨_, h2⟩ := q1Pass_ok lines q1Init s hp
    have hng : nestedGet s.date_user_counts d
        = Counter.build (q1UserKeys lines d) := h2 d
    obtain ⟨d0, _hd0, hres⟩ := mapME_ok_mem _ _ out hm (d, u) hmem
    obtain ⟨hd0d, m, rest, hmc⟩ := topUserOf_ok s d0 d u hres
    subst hd0d
    obtain ⟨t, hst⟩ := mostCommon_one _ u m rest hmc
    have hnd : ((nestedGet s.date_user_counts d).map Prod.fst).Nodup := by
      rw [hng]
      exact Counter.nodup_keys_build _
    have hle := cnt_le_of_sorted_head _ u m t hnd hst u'
    have hcu : Counter.cnt (nestedGet s.date_user_counts d) u = m := by
      apply Counter.cnt_of_mem _ u m hnd
      have hms : (u, m) ∈ sortedCounter (nestedGet s.date_user_counts d) := by
        rw [hst]
        exact List.mem_cons_self _ _
      exact (perm_sortedCounter _).subset hms
    rw [← hng, hcu]
    exact hle
  · intro rows d u hmem u'
    have hmem' := (perm_sortRank (fun p : Nat × Option String => p.1) _).subset
      hmem
    obtain ⟨p, hp, hf⟩ := List.mem_filterMap.mp hmem'
    cases hp1 : p.1 with
    | none => rw [hp1] at hf; cases hf
    | some d0 =>
        rw [hp1] at hf
        have hf2 : Option.map (fun v => (d0, v)) (topUserTime rows d0)
            = some (d, u) := hf
        cases ht : topUserTime rows d0 with
        | none => rw [ht] at hf2; cases hf2
        | some u0 =>
            rw [ht] at hf2
            have hf' : (d0, u0) = (d, u) := Option.some.inj hf2
            have hd0 : d0 = d := congrArg Prod.fst hf'
            have hu0 : u0 = u := congrArg Prod.snd hf'
            rw [← hd0, ← hu0]
            unfold topUserTime at ht
            cases hmc : mostCommon (userCounterFor rows d0) 1 with
            | nil => rw [hmc] at ht; cases ht
            | cons q rest =>
                rw [hmc] at ht
                obtain ⟨q1, q2⟩ := q
                have hq1 : q1 = u0 := Option.some.inj ht
                subst hq1
                obtain ⟨t, hst⟩ := mostCommon_one _ _ q2 rest hmc
                have hnd : ((userCounterFor rows d0).map Prod.fst).Nodup := by
                  rw [userCounterFor_build]
                  exact Counter.nodup_keys_build _
                have hle := cnt_le_of_sorted_head _ _ q2 t hnd hst u'
                have hcu : Counter.cnt (userCounterFor rows d0) q1 = q2 := by
                  apply Counter.cnt_of_mem _ _ _ hnd
                  have hms : (q1, q2) ∈ sortedCounter (userCounterFor rows d0) := by
                    rw [hst]
                    exact List.mem_cons_self _ _
                  exact (perm_sortedCounter _).subset hms
                rw [hcu]
                exact hle

/-- Witness for C4 at concrete inputs: date 1 has authors x (twice) and
y (once); both implementations return x, and y's count 1 is bounded by
x's count 2. -/
theorem c4_top_author_witness :
    q1_memory [recDU 1 "x", recDU 1 "y", recDU 1 "x"] = .ok [(1, "x")]
    ∧ Counter.cnt
        (Counter.build (q1UserKeys [recDU 1 "x", recDU 1 "y", recDU 1 "x"] 1))
        "y"
      ≤ Counter.cnt
          (Counter.build (q1UserKeys [recDU 1 "x", recDU 1 "y", recDU 1 "x"] 1))
          "x"
    ∧ (1, some "x") ∈ q1_time [⟨some 1, some "x"⟩, ⟨some 1, some "y"⟩,
        ⟨some 1, some "x"⟩]
    ∧ Counter.cnt (userCounterFor [⟨some 1, some "x"⟩, ⟨some 1, some "y"⟩,
          ⟨some 1, some "x"⟩] 1) (some "y")
      ≤ Counter.cnt (userCounterFor [⟨some 1, some "x"⟩, ⟨some 1, some "y"⟩,
          ⟨some 1, some "x"⟩] 1) (some "x") := by
  refine ⟨rfl, ?_, by decide, ?_⟩
  · exact c4_top_author.1 [recDU 1 "x", recDU 1 "y", recDU 1 "x"]
      [(1, "x")] 1 "x" rfl (List.mem_singleton.mpr rfl) "y"
  · exact c4_top_author.2 [⟨some 1, some "x"⟩, ⟨some 1, some "y"⟩,
      ⟨some 1, some "x"⟩] 1 (some "x") (by decide) (some "y")

/-- C3: among keys with equal count, each memory implementation ranks
the key whose first stream occurrence is earlier ahead of the one first
observed later.  Relative order in the result is expressed as a
two-element sublist; the first occurrence position is `idxOf` in the
statistic's key stream. -/
theorem c3_tiebreak :
    (∀ lines out d₁ d₂, q1_memory lines = .ok out →
        List.Sublist [d₁, d₂] (out.map Prod.fst) →
        Counter.cnt (Counter.build (q1DateKeys lines)) d₁
          = Counter.cnt (Counter.build (q1DateKeys lines)) d₂ →
        idxOf d₁ (q1DateKeys lines) < idxOf d₂ (q1DateKeys lines))
    ∧ (∀ (eb : Nat → Bool) lines out k₁ k₂ n, q2_memory eb lines = .ok out →
        List.Sublist [(k₁, n), (k₂, n)] out →
        idxOf k₁ (q2Keys eb lines) < idxOf k₂ (q2Keys eb lines))
    ∧ (∀ lines out k₁ k₂ n, q3_memory lines = .ok out →
        List.Sublist [(k₁, n), (k₂, n)] out →
        idxOf k₁ (q3Keys lines) < idxOf k₂ (q3Keys lines)) := by
  refine ⟨?_, ?_, ?_⟩
  · intro lines out d₁ d₂ h hsub hcnt
    obtain ⟨s, hp, hm⟩ := q1_memory_ok lines out h
    obtain ⟨h1, _⟩ := q1Pass_ok lines q1Init s hp
    have hdc : s.date_counts = Counter.build (q1DateKeys lines) := h1
    have hnd : (s.date_counts.map Prod.fst).Nodup := by
      rw [hdc]; exact Counter.nodup_keys_build _
    have hnd' : ((sortedCounter s.date_counts).map Prod.fst).Nodup :=
      ((perm_sortedCounter s.date_counts).map Prod.fst).nodup_iff.mpr hnd
    have hfst := mapME_fst (topUserOf s) _ out (topUserOf_fst s) hm
    rw [hfst] at hsub
    have hsub2 : List.Sublist [d₁, d₂]
        ((sortedCounter s.date_counts).map Prod.fst) :=
      hsub.trans ((mostCommon_sublist s.date_counts 10).map Prod.fst)
    obtain ⟨n₁, n₂, hpair⟩ :=
      keypair_of_keys_sublist (sortedCounter s.date_counts) d₁ d₂ hsub2
    have hm₁ : (d₁, n₁) ∈ s.date_counts :=
      (perm_sortedCounter _).subset (hpair.subset (by simp))
    have hm₂ : (d₂, n₂) ∈ s.date_counts :=
      (perm_sortedCounter _).subset (hpair.subset (by simp))
    have e₁ := Counter.cnt_of_mem _ d₁ n₁ hnd hm₁
    have e₂ := Counter.cnt_of_mem _ d₂ n₂ hnd hm₂
    rw [hdc] at e₁ e₂
    have hn : n₂ = n₁ := by rw [← e₁, ← e₂, hcnt]
    rw [hn] at hpair
    have hinc := tie_sublist_counter s.date_counts d₁ d₂ n₁ hpair
    have hkeys : List.Sublist [d₁, d₂] (s.date_counts.map Prod.fst) := by
      simpa using hinc.map Prod.fst
    rw [hdc] at hkeys
    exact build_keys_first_observed _ d₁ d₂ hkeys
  · intro eb lines out k₁ k₂ n h hsub
    rw [q2_memory_ok eb lines out h] at hsub
    have h1 := hsub.trans (mostCommon_sublist _ 10)
    have h2 := tie_sublist_counter _ k₁ k₂ n h1
    exact build_keys_first_observed _ k₁ k₂ (by simpa using h2.map Prod.fst)
  · intro lines out k₁ k₂ n h hsub
    rw [q3_memory_ok lines out h] at hsub
    have h1 := hsub.trans (mostCommon_sublist _ 10)
    have h2 := tie_sublist_counter _ k₁ k₂ n h1
    exact build_keys_first_observed _ k₁ k₂ (by simpa using h2.map Prod.fst)

/-- Witness for C3 at concrete tied inputs (all keys have count 1; the
first-observed key is listed first in each result). -/
theorem c3_tiebreak_witness :
    q1_memory [recDU 1 "x", recDU 2 "y"] = .ok [(1, "x"), (2, "y")]
    ∧ Counter.cnt (Counter.build (q1DateKeys [recDU 1 "x", recDU 2 "y"])) 1
        = Counter.cnt (Counter.build (q1DateKeys [recDU 1 "x", recDU 2 "y"])) 2
    ∧ idxOf 1 (q1DateKeys [recDU 1 "x", recDU 2 "y"])
        < idxOf 2 (q1DateKeys [recDU 1 "x", recDU 2 "y"])
    ∧ q3_memory [recM ["a"], recM ["b"]] = .ok [("a", 1), ("b", 1)]
    ∧ idxOf "a" (q3Keys [recM ["a"], recM ["b"]])
        < idxOf "b" (q3Keys [recM ["a"], recM ["b"]])
    ∧ q2_memory ebS [recC [100], recC [101]] = .ok [([100], 1), ([101], 1)]
    ∧ idxOf [100] (q2Keys ebS [recC [100], recC [101]])
        < idxOf [101] (q2Keys ebS [recC [100], recC [101]]) := by
  refine ⟨rfl, rfl, ?_, rfl, ?_, rfl, ?_⟩
  · exact c3_tiebreak.1 [recDU 1 "x", recDU 2 "y"] [(1, "x"), (2, "y")] 1 2
      rfl (by decide) rfl
  · exact c3_tiebreak.2.2 [recM ["a"], recM ["b"]] [("a", 1), ("b", 1)]
      "a" "b" 1 rfl (List.Sublist.refl _)
  · exact c3_tiebreak.2.1 ebS [recC [100], recC [101]]
      [([100], 1), ([101], 1)] [100] [101] 1 rfl (List.Sublist.refl _)

/-! ## Rank monotonicity core (C9) -/

/-- Appending one more occurrence of `k` to the stream never pushes `k`
down in the top-10 list: it stays in the list and its index does not
increase. -/
theorem rank_mono_core [DecidableEq K] (ks : List K) (k : K)
    (hmem : k ∈ (mostCommon (Counter.build ks) 10).map Prod.fst) :
    k ∈ (mostCommon (Counter.build (ks ++ [k])) 10).map Prod.fst
      ∧ idxOf k ((mostCommon (Counter.build (ks ++ [k])) 10).map Prod.fst)
          ≤ idxOf k ((mostCommon (Counter.build ks) 10).map Prod.fst) := by
  have hc' := Counter.build_concat ks k
  have e : ∀ c : Counter K, (mostCommon c 10).map Prod.fst
      = ((sortedCounter c).map Prod.fst).take 10 := fun c =>
    List.map_take Prod.fst (sortedCounter c) 10
  rw [e] at hmem
  obtain ⟨hks, hidx⟩ := (mem_take_iff_idxOf k _ 10).mp hmem
  have hkc : k ∈ (Counter.build ks).map Prod.fst :=
    (mem_keys_sorted _ k).mp hks
  have hnd := Counter.nodup_keys_build ks
  have hle := idx_incr_self_le (Counter.build ks) k hnd hkc
  have hk'c : k ∈ (Counter.incr (Counter.build ks) k).map Prod.fst :=
    (Counter.mem_keys_incr _ k k).mpr (Or.inr rfl)
  have hk's : k ∈ (sortedCounter (Counter.incr (Counter.build ks) k)).map
      Prod.fst := (mem_keys_sorted _ k).mpr hk'c
  have hmem' : k ∈ ((sortedCounter (Counter.incr (Counter.build ks) k)).map
      Prod.fst).take 10 :=
    (mem_take_iff_idxOf k _ 10).mpr ⟨hk's, Nat.lt_of_le_of_lt hle hidx⟩
  constructor
  · rw [e, hc']
    exact hmem'
  · rw [e, e, hc']
    rw [idxOf_take k _ 10 hmem', idxOf_take k _ 10 hmem]
    exact hle

/-- The 10th-ranked key can be displaced by one more occurrence of `k`
only when `k`'s new count at least equals the displaced key's count. -/
theorem displace_core [DecidableEq K] (ks : List K) (k B : K)
    (hB : B ∈ (mostCommon (Counter.build ks) 10).map Prod.fst)
    (hB' : B ∉ (mostCommon (Counter.build (ks ++ [k])) 10).map Prod.fst) :
    Counter.cnt (Counter.build ks) B
      ≤ Counter.cnt (Counter.build (ks ++ [k])) k := by
  have hc' := Counter.build_concat ks k
  have hck : Counter.cnt (Counter.build (ks ++ [k])) k
      = Counter.cnt (Counter.build ks) k + 1 := by
    rw [hc', Counter.cnt_incr]
    simp
  rw [hck]
  by_contra hcon
  push_neg at hcon
  have e : ∀ c : Counter K, (mostCommon c 10).map Prod.fst
      = ((sortedCounter c).map Prod.fst).take 10 := fun c =>
    List.map_take Prod.fst (sortedCounter c) 10
  rw [e] at hB hB'
  obtain ⟨hBs, hBidx⟩ := (mem_take_iff_idxOf B _ 10).mp hB
  have hBc : B ∈ (Counter.build ks).map Prod.fst :=
    (mem_keys_sorted _ B).mp hBs
  have hnd := Counter.nodup_keys_build ks
  have hB'c : B ∈ (Counter.incr (Counter.build ks) k).map Prod.fst :=
    (Counter.mem_keys_incr _ k B).mpr (Or.inl hBc)
  have hB's : B ∈ (sortedCounter (Counter.incr (Counter.build ks) k)).map
      Prod.fst := (mem_keys_sorted _ B).mpr hB'c
  by_cases hk : k ∈ (Counter.build ks).map Prod.fst
  · have hfar : Counter.cnt (Counter.build ks) k + 1
        < Counter.cnt (Counter.build ks) B := hcon
    have heq := idx_incr_other_eq (Counter.build ks) k B hnd hk hBc hfar
    apply hB'
    rw [hc']
    exact (mem_take_iff_idxOf B _ 10).mpr ⟨hB's, by rw [heq]; exact hBidx⟩
  · have hck0 : Counter.cnt (Counter.build ks) k = 0 :=
      Counter.cnt_eq_zero_of_not_mem _ k hk
    rw [hck0] at hcon
    have heq := idx_concat_new_eq (Counter.build ks) k B hnd hk hBc
      (by omega)
    apply hB'
    rw [hc']
    exact (mem_take_iff_idxOf B _ 10).mpr ⟨hB's, by rw [heq]; exact hBidx⟩

/-- The key streams extend by one record appended at the end. -/
theorem q3Keys_concat (lines : List Jline) (t : Tweet) :
    q3Keys (lines ++ [.obj t]) = q3Keys lines ++ mentionKeys t := by
  simp [q3Keys, q3LineKeys]

theorem q2Keys_concat (eb : Nat → Bool) (lines : List Jline) (t : Tweet) :
    q2Keys eb (lines ++ [.obj t])
      = q2Keys eb lines ++ q2LineKeys eb (.obj t) := by
  simp [q2Keys]

/-- C9 (amended): appending one record that contributes exactly one
occurrence of key `k` and nothing else never decreases `k`'s rank in the
returned list, and it can displace the currently 10th-ranked key only
when `k`'s new count at least equals — not necessarily exceeds — that
key's count (the equal case arises when `k` was first observed earlier,
by the tie-break of C3). -/
theorem c9_amended :
    (∀ lines t k out out₂,
        mentionKeys t = [k] →
        q3_memory lines = .ok out →
        q3_memory (lines ++ [.obj t]) = .ok out₂ →
        (k ∈ out.map Prod.fst →
          k ∈ out₂.map Prod.fst
            ∧ idxOf k (out₂.map Prod.fst) ≤ idxOf k (out.map Prod.fst))
        ∧ ∀ B, B ∈ out.map Prod.fst → B ∉ out₂.map Prod.fst →
            Counter.cnt (Counter.build (q3Keys lines)) B
              ≤ Counter.cnt (Counter.build (q3Keys (lines ++ [.obj t]))) k)
    ∧ (∀ (eb : Nat → Bool) lines t k out out₂,
        q2LineKeys eb (.obj t) = [k] →
        q2_memory eb lines = .ok out →
        q2_memory eb (lines ++ [.obj t]) = .ok out₂ →
        (k ∈ out.map Prod.fst →
          k ∈ out₂.map Prod.fst
            ∧ idxOf k (out₂.map Prod.fst) ≤ idxOf k (out.map Prod.fst))
        ∧ ∀ B, B ∈ out.map Prod.fst → B ∉ out₂.map Prod.fst →
            Counter.cnt (Counter.build (q2Keys eb lines)) B
              ≤ Counter.cnt (Counter.build (q2Keys eb (lines ++ [.obj t]))) k) := by
  constructor
  · intro lines t k out out₂ hkeys h h₂
    have hs : q3Keys (lines ++ [.obj t]) = q3Keys lines ++ [k] := by
      rw [q3Keys_concat, hkeys]
    rw [q3_memory_ok lines out h, q3_memory_ok _ out₂ h₂, hs]
    exact ⟨fun hm => rank_mono_core (q3Keys lines) k hm,
      fun B hm hm' => displace_core (q3Keys lines) k B hm hm'⟩
  · intro eb lines t k out out₂ hkeys h h₂
    have hs : q2Keys eb (lines ++ [.obj t]) = q2Keys eb lines ++ [k] := by
      rw [q2Keys_concat, hkeys]
    rw [q2_memory_ok eb lines out h, q2_memory_ok eb _ out₂ h₂, hs]
    exact ⟨fun hm => rank_mono_core (q2Keys eb lines) k hm,
      fun B hm hm' => displace_core (q2Keys eb lines) k B hm hm'⟩

/-- Input for the C9 counterexample: a first observed once, b twice,
then nine keys three times each; b is the 10th-ranked key. -/
def c9lines : List Jline :=
  [recM ["a"], recM ["b", "b"], recM ["c1", "c1", "c1"],
   recM ["c2", "c2", "c2"], recM ["c3", "c3", "c3"], recM ["c4", "c4", "c4"],
   recM ["c5", "c5", "c5"], recM ["c6", "c6", "c6"], recM ["c7", "c7", "c7"],
   recM ["c8", "c8", "c8"], recM ["c9", "c9", "c9"]]

/-- q3_memory's result on `c9lines`. -/
def c9out : List (String × Nat) :=
  [("c1", 3), ("c2", 3), ("c3", 3), ("c4", 3), ("c5", 3), ("c6", 3),
   ("c7", 3), ("c8", 3), ("c9", 3), ("b", 2)]

/-- q3_memory's result on `c9lines` plus one more mention of a. -/
def c9out2 : List (String × Nat) :=
  [("c1", 3), ("c2", 3), ("c3", 3), ("c4", 3), ("c5", 3), ("c6", 3),
   ("c7", 3), ("c8", 3), ("c9", 3), ("a", 2)]

/-- Counterexample to C9 as stated.  First block: one record that does
contribute to key a's count (once, besides three mentions of l) drops
a's rank from 0 to 1, against "never decreases K's rank".  Second block:
one record contributing only to a displaces the 10th-ranked key b even
though a's new count 2 merely equals b's count 2, against "only if K's
new count exceeds that key's count". -/
theorem c9_counterexample :
    (q3_memory [recM ["a"], recM ["b"]] = .ok [("a", 1), ("b", 1)]
      ∧ q3_memory ([recM ["a"], recM ["b"]] ++ [recM ["a", "l", "l", "l"]])
          = .ok [("l", 3), ("a", 2), ("b", 1)]
      ∧ occCount "a" (q3LineKeys (recM ["a", "l", "l", "l"])) = 1
      ∧ idxOf "a" (([("a", 1), ("b", 1)] : List (String × Nat)).map Prod.fst)
          = 0
      ∧ idxOf "a" (([("l", 3), ("a", 2), ("b", 1)]
          : List (String × Nat)).map Prod.fst) = 1
      ∧ ¬ ((1 : Nat) ≤ 0))
    ∧ (q3_memory c9lines = .ok c9out
      ∧ q3_memory (c9lines ++ [recM ["a"]]) = .ok c9out2
      ∧ ("b", 2) ∈ c9out
      ∧ "b" ∉ c9out2.map Prod.fst
      ∧ Counter.cnt (Counter.build (q3Keys (c9lines ++ [recM ["a"]]))) "a" = 2
      ∧ Counter.cnt (Counter.build (q3Keys c9lines)) "b" = 2
      ∧ ¬ ((2 : Nat) > 2)) :=
  ⟨⟨rfl, rfl, rfl, rfl, rfl, by omega⟩,
    ⟨rfl, rfl, by decide, by decide, rfl, rfl, by omega⟩⟩

/-- Witness for the amended C9 at concrete inputs: one more mention of a
keeps a at rank 0, and in the displacement scenario b's count 2 is
bounded by a's new count 2. -/
theorem c9_amended_witness :
    mentionKeys ⟨.absent, .absent, none, none, [some "a"]⟩ = ["a"]
    ∧ q3_memory [recM ["a"], recM ["b"]] = .ok [("a", 1), ("b", 1)]
    ∧ q3_memory ([recM ["a"], recM ["b"]]
          ++ [.obj ⟨.absent, .absent, none, none, [some "a"]⟩])
        = .ok [("a", 2), ("b", 1)]
    ∧ ("a" ∈ (([("a", 2), ("b", 1)] : List (String × Nat)).map Prod.fst)
        ∧ idxOf "a" (([("a", 2), ("b", 1)] : List (String × Nat)).map Prod.fst)
            ≤ idxOf "a" (([("a", 1), ("b", 1)]
                : List (String × Nat)).map Prod.fst))
    ∧ Counter.cnt (Counter.build (q3Keys c9lines)) "b"
        ≤ Counter.cnt (Counter.build (q3Keys (c9lines
            ++ [.obj ⟨.absent, .absent, none, none, [some "a"]⟩]))) "a" := by
  refine ⟨rfl, rfl, rfl, ?_, ?_⟩
  · exact (c9_amended.1 [recM ["a"], recM ["b"]]
      ⟨.absent, .absent, none, none, [some "a"]⟩ "a" [("a", 1), ("b", 1)]
      [("a", 2), ("b", 1)] rfl rfl rfl).1 (by decide)
  · exact (c9_amended.1 c9lines
      ⟨.absent, .absent, none, none, [some "a"]⟩ "a" c9out c9out2
      rfl rfl rfl).2 "b" (by decide) (by decide)

end DEChallenge
